import Mathlib

/-!
Verification of the aggregation-and-mutation pipeline of the version
calculation action (`src/index.ts`).

Strings are modelled as lists of unicode characters (`Str`).  External
collaborators are parameters of the model:

* the version oracle process is a function `Str → Except Str ProjectVersion`;
* `path.relative(process.cwd(), ·)` is a function parameter `rel`;
* the JSON serializer used by `formatSummary` is a parameter `jsonOf`;
* the file system is an explicit map `Fs := Str → Option Str`.

The JavaScript regular-expression operations used by `updateProjectFile`
(`/<Tag>.*<\/Tag>/g` global replaces with greedy dot that excludes line
terminators) are embedded by `lineReplace` / `mapSegments` below: a match
never spans a line terminator, and on each terminator-free segment the
greedy dot yields at most one match, running from the first occurrence of
the opening tag to the last occurrence of the closing tag of the segment.
Replacement strings are spliced literally; this coincides with JavaScript
whenever the replacement value contains no `$` character (the theorems that
quantify over versions carry that hypothesis where it matters).
-/

namespace Calc

/-- Strings as lists of characters. -/
abbrev Str := List Char

/-- Line-terminator characters: exactly those a JavaScript regexp dot
does not match. -/
def isTerm (c : Char) : Bool :=
  c == '\n' || c == '\r' || c == Char.ofNat 0x2028 || c == Char.ofNat 0x2029

/-- JavaScript `String.prototype.split` on a character-class regexp:
split at every separator character; adjacent separators yield empty
segments, and the result is never the empty list. -/
def splitOnSep (sep : Char → Bool) : Str → List Str
  | [] => [[]]
  | c :: cs =>
    if sep c then [] :: splitOnSep sep cs
    else
      match splitOnSep sep cs with
      | [] => [[c]]
      | l :: ls => (c :: l) :: ls

/-- The four capture groups of `/^(\d+)\.(\d+)\.(\d+)(?:-(.+))?$/`. -/
structure ParsedVersion where
  major : Str
  minor : Str
  patch : Str
  pre : Option Str
deriving Repr, DecidableEq

/-- The semver-like pattern match `version.match(/^(\d+)\.(\d+)\.(\d+)(?:-(.+))?$/)`
used by `updateProjectFile` and `writeMrVersionPropsFile`.  The prerelease
group `(.+)` requires at least one character and (dot excludes line
terminators) no line terminator. -/
def parseVersion (v : Str) : Option ParsedVersion :=
  let ma := v.takeWhile Char.isDigit
  let r1 := v.dropWhile Char.isDigit
  if ma = [] then none else
  match r1 with
  | '.' :: r2 =>
    let mi := r2.takeWhile Char.isDigit
    let r3 := r2.dropWhile Char.isDigit
    if mi = [] then none else
    match r3 with
    | '.' :: r4 =>
      let pa := r4.takeWhile Char.isDigit
      let r5 := r4.dropWhile Char.isDigit
      if pa = [] then none else
      match r5 with
      | [] => some ⟨ma, mi, pa, none⟩
      | '-' :: rest =>
        if rest ≠ [] ∧ rest.all (fun c => !isTerm c) then some ⟨ma, mi, pa, some rest⟩
        else none
      | _ => none
    | _ => none
  | _ => none

/-- The per-project record returned by the oracle (interface `ProjectVersion`). -/
structure ProjectVersion where
  project : Str
  path : Str
  version : Str
  versionChanged : Bool
  changeReason : Option Str
  commitSha : Option Str
  commitDate : Option Str
  commitMessage : Option Str
  branchType : Option Str
  branchName : Option Str
  isTestProject : Bool
  isPackable : Bool
  dependencies : List Str
deriving Repr, DecidableEq

/-- Result of `analyzeResults` (interface `VersionCalculationResult`). -/
structure VersionCalculationResult where
  projects : List ProjectVersion
  changedProjects : List ProjectVersion
  hasChanges : Bool
  summary : Str
deriving Repr, DecidableEq

/-- JavaScript `Array.prototype.join`: empty list gives the empty string,
otherwise the pieces separated by `sep`. -/
def joinSep (sep : Str) : List Str → Str
  | [] => []
  | [x] => x
  | x :: y :: xs => x ++ sep ++ joinSep sep (y :: xs)

/-- Decimal rendering of a count, as a JavaScript template literal would. -/
def istr (i : Int) : Str := (toString i).data

/-- One changed-project summary line.  A missing `changeReason` renders as
the string `undefined`, exactly as a JavaScript template literal does. -/
def changedLine (p : ProjectVersion) : Str :=
  ("- **").data ++ p.project ++ ("**: ").data ++ p.version ++ (" _(").data ++
    (match p.changeReason with
     | some r => r
     | none => ("undefined").data) ++ (")_").data

/-- One unchanged-project summary line. -/
def unchangedLine (p : ProjectVersion) : Str :=
  ("- **").data ++ p.project ++ ("**: ").data ++ p.version

/-- The summary lines built by `generateSummary` before joining. -/
def summaryLines (allProjects changedProjects : List ProjectVersion) : List Str :=
  [("**📊 Version Calculation Summary**").data,
   ("- Total projects: ").data ++ istr allProjects.length,
   ("- Projects with changes: ").data ++ istr changedProjects.length,
   ("- Projects unchanged: ").data ++
     istr ((allProjects.length : Int) - (changedProjects.length : Int))]
  ++ (if 0 < changedProjects.length then
        [[], ("**🔄 Changed Projects:**").data] ++ changedProjects.map changedLine
      else [])
  ++ (if 0 < (allProjects.length : Int) - (changedProjects.length : Int) then
        [[], ("**✅ Unchanged Projects:**").data]
          ++ (allProjects.filter (fun p => !p.versionChanged)).map unchangedLine
      else [])

/-- `generateSummary` from src/index.ts: `lines.join('\n')`. -/
def generateSummary (allProjects changedProjects : List ProjectVersion) : Str :=
  joinSep (['\n']) (summaryLines allProjects changedProjects)

/-- `analyzeResults` from src/index.ts (the `core.info` observability call is
a side effect outside the returned value). -/
def analyzeResults (projects : List ProjectVersion) (includeTestProjects : Bool) :
    VersionCalculationResult :=
  let filteredProjects :=
    if includeTestProjects then projects
    else projects.filter (fun p => !p.isTestProject)
  let changedProjects := filteredProjects.filter (fun p => p.versionChanged)
  { projects := filteredProjects
    changedProjects := changedProjects
    hasChanges := decide (0 < changedProjects.length)
    summary := generateSummary filteredProjects changedProjects }

/-- The in-memory version map (a JavaScript object keyed by strings). -/
abbrev VMap := Str → Option Str

/-- JavaScript property assignment `map[k] = v`. -/
def vmSet (m : VMap) (k v : Str) : VMap :=
  fun q => if q = k then some v else m q

/-- `createVersionMap` from src/index.ts.  `rel` models
`path.relative(process.cwd(), ·)` of the invocation's working directory. -/
def createVersionMap (rel : Str → Str) (projects : List ProjectVersion) : VMap :=
  projects.foldl (fun m p => vmSet (vmSet m p.project p.version) (rel p.path) p.version)
    (fun _ => none)

/-- Lowercasing for the `format.toLowerCase()` dispatch. -/
def lowerStr (s : Str) : Str := s.map Char.toLower

/-- The per-project lines of `formatAsYaml`.  `if (project.changeReason)`
is JavaScript truthiness: present and non-empty. -/
def yamlProjectLines (p : ProjectVersion) : List Str :=
  [("  - name: ").data ++ p.project,
   ("    version: ").data ++ p.version,
   ("    changed: ").data ++ (toString p.versionChanged).data]
  ++ (match p.changeReason with
      | some r => if r ≠ [] then [("    reason: \"").data ++ r ++ ("\"").data] else []
      | none => [])

/-- `formatAsYaml` from src/index.ts. -/
def formatAsYaml (result : VersionCalculationResult) : Str :=
  joinSep (['\n'])
    ([("```yaml").data, ("projects:").data]
     ++ (result.projects.map yamlProjectLines).flatten ++ [("```").data])

/-- The per-project lines of `formatAsText`. -/
def textProjectLines (p : ProjectVersion) : List Str :=
  [(if p.versionChanged then ("🔄 CHANGED ").data else ("✅ UNCHANGED ").data)
     ++ p.project ++ (": ").data ++ p.version]
  ++ (match p.changeReason with
      | some r => if r ≠ [] then [("    Reason: ").data ++ r] else []
      | none => [])

/-- `formatAsText` from src/index.ts. -/
def formatAsText (result : VersionCalculationResult) : Str :=
  joinSep (['\n'])
    ([("```").data, ("Project Versions:").data, ("================").data]
     ++ (result.projects.map textProjectLines).flatten ++ [("```").data])

/-- `formatSummary` from src/index.ts; `jsonOf` models `JSON.stringify`
(the `json` case and the default case coincide). -/
def formatSummary (jsonOf : VersionCalculationResult → Str)
    (result : VersionCalculationResult) (format : Str) : Str :=
  let f := lowerStr format
  if f = ("yaml").data then formatAsYaml result
  else if f = ("text").data then formatAsText result
  else jsonOf result

/-- `c == '.' || c == '-'`, the character class of `version.split(/[.-]/)`. -/
def isDotDash (c : Char) : Bool := c == '.' || c == '-'

/-- JavaScript `x || '0'` on a possibly-absent, possibly-empty string part. -/
def orZero (s : Str) : Str := if s = [] then ("0").data else s

/-- Lines 101–107 of src/index.ts: `version.split(/[.-]/)` and the four
component outputs derived from the parts. -/
def splitDecompose (v : Str) : Str × Str × Str × Str :=
  let parts := splitOnSep isDotDash v
  (orZero (parts.getD 0 []), orZero (parts.getD 1 []), orZero (parts.getD 2 []),
   if 3 < parts.length then joinSep (['.']) (parts.drop 3) else [])

/-- Rejoining decomposed components with the defined separators: a dot
between the numeric parts and a dash before a non-empty prerelease. -/
def rejoinComponents (c : Str × Str × Str × Str) : Str :=
  c.1 ++ '.' :: c.2.1 ++ '.' :: c.2.2.1 ++
    (if c.2.2.2 = [] then [] else '-' :: c.2.2.2)

/-- Lines 98–114 of src/index.ts: the five individual version-component
outputs (`version`, `major`, `minor`, `patch`, `prerelease`) as a function
of the analyzed project list. -/
def versionComponents (ps : List ProjectVersion) : Str × Str × Str × Str × Str :=
  match ps with
  | [] => (("0.1.0").data, ("0").data, ("1").data, ("0").data, [])
  | firstProject :: _ =>
    let c := splitDecompose firstProject.version
    (firstProject.version, c.1, c.2.1, c.2.2.1, c.2.2.2)

/-! ## File system and logging -/

/-- A log line produced through `core.info` / `core.warning`. -/
inductive LogEntry where
  | info (msg : Str)
  | warning (msg : Str)
deriving Repr, DecidableEq

/-- The file system: a map from paths to file contents. -/
abbrev Fs := Str → Option Str

/-- `fs.writeFile`. -/
def Fs.update (fs : Fs) (path content : Str) : Fs :=
  fun q => if q = path then some content else fs q

/-! ## The regexp replaces of `updateProjectFile` -/

/-- Whether `pat` is an initial segment of `s`. -/
def leadsWith : Str → Str → Bool
  | [], _ => true
  | _ :: _, [] => false
  | p :: ps, s :: ss => p == s && leadsWith ps ss

/-- Index of the first occurrence of `pat` in `s`, if any. -/
def firstOcc (pat : Str) : Str → Option Nat
  | [] => if leadsWith pat [] then some 0 else none
  | c :: s => if leadsWith pat (c :: s) then some 0 else (firstOcc pat s).map (· + 1)

/-- Index of the last occurrence of `pat` in `s`, if any. -/
def lastOcc (pat : Str) : Str → Option Nat
  | [] => if leadsWith pat [] then some 0 else none
  | c :: s =>
    match lastOcc pat s with
    | some i => some (i + 1)
    | none => if leadsWith pat (c :: s) then some 0 else none

/-- One global-replace pass of `/topen.*tclose/g` (greedy dot) on a single
terminator-free segment.  The greedy dot produces at most one match per
segment: from the first occurrence of the opening tag to the last
occurrence of the closing tag, provided the closing tag starts at or after
the end of the opening tag. -/
def lineReplace (topen tclose repl line : Str) : Str :=
  match firstOcc topen line, lastOcc tclose line with
  | some p, some k =>
    if p + topen.length ≤ k then line.take p ++ repl ++ line.drop (k + tclose.length)
    else line
  | _, _ => line

/-- Apply `f` to every maximal terminator-free segment of `s`, keeping the
terminator characters in place. -/
def mapSegments (f : Str → Str) (s : Str) : Str :=
  match h : s.dropWhile (fun c => !isTerm c) with
  | [] => f (s.takeWhile (fun c => !isTerm c))
  | t :: rest => f (s.takeWhile (fun c => !isTerm c)) ++ t :: mapSegments f rest
termination_by s.length
decreasing_by
  have h1 : (s.dropWhile (fun c => !isTerm c)).length ≤ s.length :=
    (List.dropWhile_sublist (l := s) (p := fun c => !isTerm c)).length_le
  rw [h] at h1
  simp only [List.length_cons] at h1
  omega

/-- One `updatedContent.replace(/<tag>.*<\/tag>/g, `<tag>val</tag>`)` pass
of src/index.ts, over the whole content. -/
def tagReplace (topen tclose val : Str) (s : Str) : Str :=
  mapSegments (lineReplace topen tclose (topen ++ val ++ tclose)) s

def vOpen : Str := ("<Version>").data
def vClose : Str := ("</Version>").data
def maOpen : Str := ("<VersionMajor>").data
def maClose : Str := ("</VersionMajor>").data
def miOpen : Str := ("<VersionMinor>").data
def miClose : Str := ("</VersionMinor>").data
def paOpen : Str := ("<VersionPatch>").data
def paClose : Str := ("</VersionPatch>").data
def suOpen : Str := ("<VersionSuffix>").data
def suClose : Str := ("</VersionSuffix>").data

/-- A sequence of single-segment replace passes, one triple
`(topen, tclose, val)` per pass, applied left to right. -/
def linePipeline (ts : List (Str × Str × Str)) (l : Str) : Str :=
  ts.foldl (fun m t => lineReplace t.1 t.2.1 (t.1 ++ t.2.2 ++ t.2.1) m) l

/-- Lines 356–383 of src/index.ts: the sequence of global replaces performed
by `updateProjectFile` on the manifest content — `Version`, `VersionMajor`,
`VersionMinor`, `VersionPatch`, then `VersionSuffix` only when a prerelease
suffix is present. -/
def updatedContent (pv : ParsedVersion) (version content : Str) : Str :=
  let c1 := tagReplace vOpen vClose version content
  let c2 := tagReplace maOpen maClose pv.major c1
  let c3 := tagReplace miOpen miClose pv.minor c2
  let c4 := tagReplace paOpen paClose pv.patch c3
  match pv.pre with
  | none => c4
  | some pre => tagReplace suOpen suClose pre c4

/-! ## The manifest mutator -/

/-- The warning text shared by `updateProjectFile` and
`writeMrVersionPropsFile` on a pattern mismatch. -/
def cannotParseMsg (p : ProjectVersion) : Str :=
  ("Cannot parse version ").data ++ p.version ++ (" for ").data ++ p.project

/-- `updateProjectFile` from src/index.ts.  A missing file makes the read
throw (`Except.error`); a version that fails the pattern produces a warning
and no write; otherwise the replaces run and the file is rewritten only if
the content changed. -/
def updateProjectFile (fs : Fs) (p : ProjectVersion) : Except Str (Fs × List LogEntry) :=
  match fs p.path with
  | none => .error (("ENOENT: no such file or directory, open ").data ++ p.path)
  | some content =>
    match parseVersion p.version with
    | none => .ok (fs, [.warning (cannotParseMsg p)])
    | some pv =>
      let updated := updatedContent pv p.version content
      if updated ≠ content then
        .ok (Fs.update fs p.path updated,
             [.info (("Updated version properties in ").data ++ p.project)])
      else .ok (fs, [])

/-- Simplified model of Node's posix `path.dirname`. -/
def posixDirname (p : Str) : Str :=
  match lastOcc (['/']) p with
  | none => (".").data
  | some i => if i = 0 then ("/").data else p.take i

/-- The `InformationalVersion` build-metadata suffix:
`project.commitSha ? `+$\{sha.substring(0, 7)}` : ''` (truthiness: present
and non-empty). -/
def shaSuffix (sha : Option Str) : Str :=
  match sha with
  | some s => if s ≠ [] then '+' :: s.take 7 else []
  | none => []

/-- The template body written by `writeMrVersionPropsFile` (lines 406–419). -/
def mrPropsContent (p : ProjectVersion) (pv : ParsedVersion) : Str :=
  ("<Project>\n  <!-- Generated by Mister.Version -->\n  <PropertyGroup>\n    <Version>").data
  ++ p.version ++ ("</Version>\n    <VersionMajor>").data ++ pv.major
  ++ ("</VersionMajor>\n    <VersionMinor>").data ++ pv.minor
  ++ ("</VersionMinor>\n    <VersionPatch>").data ++ pv.patch
  ++ ("</VersionPatch>").data
  ++ (match pv.pre with
      | some pre => ("\n    <VersionSuffix>").data ++ pre ++ ("</VersionSuffix>").data
      | none => [])
  ++ ("\n    <AssemblyVersion>").data ++ pv.major ++ '.' :: pv.minor ++ '.' :: pv.patch
  ++ (".0</AssemblyVersion>\n    <FileVersion>").data ++ pv.major ++ '.' :: pv.minor
  ++ '.' :: pv.patch ++ (".0</FileVersion>\n    <InformationalVersion>").data
  ++ p.version ++ shaSuffix p.commitSha
  ++ ("</InformationalVersion>\n  </PropertyGroup>\n</Project>\n").data

/-- `writeMrVersionPropsFile` from src/index.ts: parse the version (warning
and no write on mismatch), then unconditionally (over)write the fixed-name
companion file in the manifest's directory. -/
def writeMrVersionPropsFile (fs : Fs) (p : ProjectVersion) : Except Str (Fs × List LogEntry) :=
  let propsPath := posixDirname p.path ++ ("/MrVersion.props").data
  match parseVersion p.version with
  | none => .ok (fs, [.warning (cannotParseMsg p)])
  | some pv =>
    .ok (Fs.update fs propsPath (mrPropsContent p pv),
         [.info (("Created MrVersion.props for ").data ++ p.project)])

/-- The catch-all warning of the per-project try/catch in `updateProjects`. -/
def failedUpdateMsg (p : ProjectVersion) (e : Str) : Str :=
  ("Failed to update project ").data ++ p.project ++ (": ").data ++ e

/-- The body of the `updateProjects` loop for one record: optional manifest
mutation, then optional companion-file write, with a catch that converts
any error into a warning naming the project.  A failure keeps the
file-system state reached so far. -/
def processProject (fs : Fs) (p : ProjectVersion) (updateProperties writeProps : Bool) :
    Fs × List LogEntry :=
  match (if updateProperties then updateProjectFile fs p else .ok (fs, [])) with
  | .error e => (fs, [.warning (failedUpdateMsg p e)])
  | .ok (fs1, l1) =>
    match (if writeProps then writeMrVersionPropsFile fs1 p else .ok (fs1, [])) with
    | .error e => (fs1, l1 ++ [.warning (failedUpdateMsg p e)])
    | .ok (fs2, l2) => (fs2, l1 ++ l2)

/-- `updateProjects` from src/index.ts: sequential processing of every
record; per-record failures are contained by `processProject`. -/
def updateProjects (fs : Fs) (projects : List ProjectVersion)
    (updateProperties writeProps : Bool) : Fs × List LogEntry :=
  match projects with
  | [] => (fs, [])
  | p :: rest =>
    let r := processProject fs p updateProperties writeProps
    let rr := updateProjects r.1 rest updateProperties writeProps
    (rr.1, r.2 ++ rr.2)

/-! ## The run -/

/-- The boolean and format inputs read at the top of `run`. -/
structure RunInputs where
  failOnNoChanges : Bool
  updateProjectProperties : Bool
  writeMrVersionProps : Bool
  dryRun : Bool
  includeTestProjects : Bool
  outputVersionInformation : Bool
  outputFormat : Str

/-- The named outputs set by `run`, kept at the point of serialization
(`core.setOutput` stringification is external). -/
structure RunOutputs where
  projects : List ProjectVersion
  changedProjects : List ProjectVersion
  hasChanges : Bool
  summary : Str
  versionMap : VMap
  version : Str
  major : Str
  minor : Str
  patch : Str
  prerelease : Str

/-- Observable outcome of one `run` invocation. -/
structure RunResult where
  failedMsg : Option Str
  outputs : Option RunOutputs
  fs : Fs
  jobSummary : Option Str

/-- The sequential oracle-invocation loop of `run` (lines 66–79): the first
failing query aborts the batch. -/
def collectResults (oracle : Str → Except Str ProjectVersion) :
    List Str → Except Str (List ProjectVersion)
  | [] => .ok []
  | f :: rest => do
    let r ← oracle f
    let rs ← collectResults oracle rest
    .ok (r :: rs)

/-- `run` from src/index.ts, after manifest discovery (`projectFiles` is the
locator's result).  `rel` models `path.relative(process.cwd(), ·)`, `oracle`
the external version-computation process, `jsonOf` the JSON serializer. -/
def runModel (rel : Str → Str) (oracle : Str → Except Str ProjectVersion)
    (jsonOf : VersionCalculationResult → Str) (fs0 : Fs) (inp : RunInputs)
    (projectFiles : List Str) : RunResult :=
  if projectFiles.length = 0 ∧ inp.failOnNoChanges = true then
    { failedMsg := some (("No project files found and fail-on-no-changes is enabled").data)
      outputs := none, fs := fs0, jobSummary := none }
  else
    match collectResults oracle projectFiles with
    | .error e =>
      { failedMsg := some (("Failed to calculate versions: ").data ++ e)
        outputs := none, fs := fs0, jobSummary := none }
    | .ok results =>
      let analysisResult := analyzeResults results inp.includeTestProjects
      if inp.failOnNoChanges = true ∧ analysisResult.hasChanges = false then
        { failedMsg := some (("No version changes detected and fail-on-no-changes is enabled").data)
          outputs := none, fs := fs0, jobSummary := none }
      else
        let comps := versionComponents analysisResult.projects
        let outs : RunOutputs :=
          { projects := analysisResult.projects
            changedProjects := analysisResult.changedProjects
            hasChanges := analysisResult.hasChanges
            summary := analysisResult.summary
            versionMap := createVersionMap rel analysisResult.projects
            version := comps.1, major := comps.2.1, minor := comps.2.2.1
            patch := comps.2.2.2.1, prerelease := comps.2.2.2.2 }
        let upd :=
          if inp.updateProjectProperties || inp.writeMrVersionProps then
            if inp.dryRun then (fs0, ([] : List LogEntry))
            else updateProjects fs0 analysisResult.projects
                   inp.updateProjectProperties inp.writeMrVersionProps
          else (fs0, [])
        { failedMsg := none
          outputs := some outs
          fs := upd.1
          jobSummary :=
            if inp.outputVersionInformation then
              some (formatSummary jsonOf analysisResult inp.outputFormat)
            else none }

/-! ## Occurrence predicates for reasoning about the replaces -/

/-- `pat` occurs in `s` at index `i`. -/
def occursAt (pat s : Str) (i : Nat) : Prop :=
  ∃ u w, s = u ++ pat ++ w ∧ u.length = i

/-- `pat` does not occur in `s` at all. -/
def NoOcc (pat s : Str) : Prop := ∀ i, ¬ occursAt pat s i

/-- No pair of an opening tag and a closing tag far enough to its right:
the regexp `/topen.*tclose/` has no match in `l`. -/
def MatchFree (topen tclose l : Str) : Prop :=
  ∀ p k, occursAt topen l p → occursAt tclose l k → k < p + topen.length

/-- Structure shared by all ten tag literals: non-empty, the character `<`
appears exactly at the start, and `>` exactly at the end. -/
def TagStr (t : Str) : Prop :=
  t ≠ [] ∧
  (∀ i, i < t.length → t.getD i ' ' = '<' → i = 0) ∧
  (∀ i, i < t.length → t.getD i ' ' = '>' → i = t.length - 1) ∧
  t.getD 0 ' ' = '<' ∧ t.getD (t.length - 1) ' ' = '>'

/-- The canonical one-match segment shape left behind by a replace pass:
a prefix without the opening tag, one freshly written element, and a suffix
without the closing tag. -/
def SegShape (topen tclose val l : Str) : Prop :=
  ∃ a b, l = a ++ (topen ++ val ++ tclose) ++ b ∧ NoOcc topen a ∧ NoOcc tclose b

/-- String without line terminators. -/
def NoTermStr (s : Str) : Prop := ∀ c ∈ s, isTerm c = false

/-- Replacement value that cannot fabricate or destroy tag occurrences:
no `<` and no line terminator. -/
def CleanVal (val : Str) : Prop := '<' ∉ val ∧ NoTermStr val

/-- `l` is a fixed point of the replace pass for this tag on one segment. -/
def LineFixed (topen tclose val l : Str) : Prop :=
  lineReplace topen tclose (topen ++ val ++ tclose) l = l

/-- `s` is a fixed point of the replace pass for this tag on whole content. -/
def ContentFixed (topen tclose val s : Str) : Prop :=
  tagReplace topen tclose val s = s

/-! ## Concrete inputs used by witnesses and counterexamples -/

/-- An unchanged project record with version `1.2.3`. -/
def recA : ProjectVersion :=
  { project := ("A").data, path := ("proj/a/a.csproj").data, version := ("1.2.3").data
    versionChanged := false, changeReason := none, commitSha := none, commitDate := none
    commitMessage := none, branchType := none, branchName := none
    isTestProject := false, isPackable := true, dependencies := [] }

/-- A changed project record with version `4.5.6`. -/
def recB : ProjectVersion :=
  { project := ("B").data, path := ("proj/b/b.csproj").data, version := ("4.5.6").data
    versionChanged := true, changeReason := some (("feat: change").data)
    commitSha := some (("0123456789abcdef").data), commitDate := none
    commitMessage := none, branchType := none, branchName := none
    isTestProject := false, isPackable := true, dependencies := [] }

/-- A record whose version does not match the semver-like pattern. -/
def recBad : ProjectVersion :=
  { project := ("Bad").data, path := ("proj/bad/bad.csproj").data
    version := ("not-a-version").data
    versionChanged := true, changeReason := some (("feat: x").data), commitSha := none
    commitDate := none, commitMessage := none, branchType := none, branchName := none
    isTestProject := false, isPackable := true, dependencies := [] }

/-- A record whose manifest file is absent from the file system. -/
def recGhost : ProjectVersion :=
  { project := ("Ghost").data, path := ("proj/ghost/ghost.csproj").data
    version := ("1.0.0").data
    versionChanged := true, changeReason := none, commitSha := none
    commitDate := none, commitMessage := none, branchType := none, branchName := none
    isTestProject := false, isPackable := true, dependencies := [] }

/-- A record whose prerelease suffix contains a closing `Version` tag. -/
def recPre : ProjectVersion :=
  { project := ("Pre").data, path := ("proj/pre/pre.csproj").data
    version := ("1.0.0-Z</Version>W").data
    versionChanged := true, changeReason := none, commitSha := none
    commitDate := none, commitMessage := none, branchType := none, branchName := none
    isTestProject := false, isPackable := true, dependencies := [] }

/-- A record with a plain release version `2.0.0` (no prerelease). -/
def recRel : ProjectVersion :=
  { project := ("Rel").data, path := ("proj/rel/rel.csproj").data
    version := ("2.0.0").data
    versionChanged := true, changeReason := none, commitSha := none
    commitDate := none, commitMessage := none, branchType := none, branchName := none
    isTestProject := false, isPackable := true, dependencies := [] }

/-- Manifest content used for the idempotence counterexample: a `Version`
element and a `VersionSuffix` element on one line. -/
def cexContent : Str := ("<Version>o</Version><VersionSuffix>o</VersionSuffix>").data

/-- Manifest content with a `VersionSuffix` element between two `Version`
elements on one line. -/
def frameContent : Str :=
  ("<Version>a</Version><VersionSuffix>s</VersionSuffix><Version>b</Version>").data

/-- A small multi-line manifest for witnesses. -/
def plainContent : Str :=
  ("<Project>\n  <Version>0.0.1</Version>\n  <VersionSuffix>beta</VersionSuffix>\n</Project>\n").data

/-- A file system holding only record `recBad`'s manifest. -/
def fsBad : Fs := fun q => if q = recBad.path then some plainContent else none

/-- Oracle returning `recA` for record A's path and `recB` otherwise. -/
def oracleAB : Str → Except Str ProjectVersion :=
  fun p => if p = recA.path then .ok recA else .ok recB

/-- Run inputs with every boolean disabled and JSON output format. -/
def quietInputs : RunInputs :=
  { failOnNoChanges := false, updateProjectProperties := false
    writeMrVersionProps := false, dryRun := false, includeTestProjects := true
    outputVersionInformation := false, outputFormat := ("json").data }

/-! ## Basic lemmas about `splitOnSep` and `joinSep` -/

theorem splitOnSep_ne_nil (sep : Char → Bool) (l : Str) : splitOnSep sep l ≠ [] := by
  cases l with
  | nil => simp [splitOnSep]
  | cons c cs =>
    simp only [splitOnSep]
    split
    · simp
    · split <;> simp

theorem splitOnSep_sepFree (sep : Char → Bool) (l : Str)
    (h : ∀ c ∈ l, sep c = false) : splitOnSep sep l = [l] := by
  induction l with
  | nil => rfl
  | cons c cs ih =>
    have hc : sep c = false := h c (by simp)
    have ih2 := ih (fun d hd => h d (by simp [hd]))
    simp [splitOnSep, hc, ih2]

theorem splitOnSep_append (sep : Char → Bool) (a b : Str) (x : Char)
    (ha : ∀ c ∈ a, sep c = false) (hx : sep x = true) :
    splitOnSep sep (a ++ x :: b) = a :: splitOnSep sep b := by
  induction a with
  | nil => simp [splitOnSep, hx]
  | cons c cs ih =>
    have hc : sep c = false := ha c (by simp)
    have ih2 := ih (fun d hd => ha d (by simp [hd]))
    simp [splitOnSep, hc, ih2]

theorem joinSep_cons_of_ne_nil (sep x : Str) (xs : List Str) (h : xs ≠ []) :
    joinSep sep (x :: xs) = x ++ sep ++ joinSep sep xs := by
  cases xs with
  | nil => exact absurd rfl h
  | cons y ys => rfl

theorem joinSep_cons_head (sep : Str) (c : Char) (hd : Str) (tl : List Str) :
    joinSep sep ((c :: hd) :: tl) = c :: joinSep sep (hd :: tl) := by
  cases tl <;> simp [joinSep]

theorem joinSep_splitOnSep_dot (l : Str) (h : '-' ∉ l) :
    joinSep (['.']) (splitOnSep isDotDash l) = l := by
  induction l with
  | nil => rfl
  | cons c cs ih =>
    have ih2 : joinSep (['.']) (splitOnSep isDotDash cs) = cs :=
      ih (fun hc => h (by simp [hc]))
    obtain ⟨hd, tl, hsplit⟩ : ∃ hd tl, splitOnSep isDotDash cs = hd :: tl := by
      cases hs : splitOnSep isDotDash cs with
      | nil => exact absurd hs (splitOnSep_ne_nil _ _)
      | cons hd tl => exact ⟨hd, tl, rfl⟩
    by_cases hc : c = '.'
    · subst hc
      have : splitOnSep isDotDash ('.' :: cs) = [] :: splitOnSep isDotDash cs := by
        simp [splitOnSep, isDotDash]
      rw [this, hsplit, joinSep_cons_of_ne_nil _ _ _ (by simp)]
      rw [hsplit] at ih2
      simp [ih2]
    · have hcd : c ≠ '-' := fun hh => h (by simp [hh])
      have hsep : isDotDash c = false := by
        simp [isDotDash]
        exact ⟨hc, hcd⟩
      have : splitOnSep isDotDash (c :: cs) = (c :: hd) :: tl := by
        simp [splitOnSep, hsep, hsplit]
      rw [this, joinSep_cons_head, ← hsplit, ih2]

/-! ## The shape of a successfully parsed version -/

theorem parseVersion_spec (v : Str) (pv : ParsedVersion) (h : parseVersion v = some pv) :
    v = pv.major ++ '.' :: pv.minor ++ '.' :: pv.patch ++
        (match pv.pre with | none => [] | some pre => '-' :: pre) ∧
    pv.major ≠ [] ∧ pv.minor ≠ [] ∧ pv.patch ≠ [] ∧
    (∀ c ∈ pv.major, c.isDigit = true) ∧ (∀ c ∈ pv.minor, c.isDigit = true) ∧
    (∀ c ∈ pv.patch, c.isDigit = true) ∧
    (∀ pre, pv.pre = some pre → pre ≠ [] ∧ NoTermStr pre) := by
  simp only [parseVersion] at h
  split at h
  · exact absurd h (by simp)
  next hma =>
    split at h
    case h_2 => exact absurd h (by simp)
    next r2 hr1 =>
      split at h
      · exact absurd h (by simp)
      next hmi =>
        split at h
        case h_2 => exact absurd h (by simp)
        next r4 hr3 =>
          split at h
          · exact absurd h (by simp)
          next hpa =>
            have hv : v = v.takeWhile Char.isDigit ++ '.' :: r2 := by
              conv_lhs => rw [← List.takeWhile_append_dropWhile Char.isDigit v]
              rw [hr1]
            have hr2 : r2 = r2.takeWhile Char.isDigit ++ '.' :: r4 := by
              conv_lhs => rw [← List.takeWhile_append_dropWhile Char.isDigit r2]
              rw [hr3]
            have hr4 : r4 = r4.takeWhile Char.isDigit ++ r4.dropWhile Char.isDigit :=
              (List.takeWhile_append_dropWhile Char.isDigit r4).symm
            split at h
            next hr5 =>
              rw [Option.some_inj] at h
              subst h
              refine ⟨?_, hma, hmi, hpa, ?_, ?_, ?_, ?_⟩
              · conv_lhs => rw [hv, hr2, hr4, hr5]
                simp
              · exact fun c hc => List.mem_takeWhile_imp hc
              · exact fun c hc => List.mem_takeWhile_imp hc
              · exact fun c hc => List.mem_takeWhile_imp hc
              · intro pre hpre
                simp at hpre
            next rest hr5 =>
              split at h
              next hrest =>
                rw [Option.some_inj] at h
                subst h
                refine ⟨?_, hma, hmi, hpa, ?_, ?_, ?_, ?_⟩
                · conv_lhs => rw [hv, hr2, hr4, hr5]
                  simp
                · exact fun c hc => List.mem_takeWhile_imp hc
                · exact fun c hc => List.mem_takeWhile_imp hc
                · exact fun c hc => List.mem_takeWhile_imp hc
                · intro pre hpre
                  rw [Option.some_inj] at hpre
                  subst hpre
                  refine ⟨hrest.1, ?_⟩
                  intro c hc
                  have := hrest.2
                  rw [List.all_eq_true] at this
                  simpa using this c hc
              · exact absurd h (by simp)
            · exact absurd h (by simp)

/-! ## Claim C4: the changed-project subsequence -/

/-- C4: for every input record list, `changedProjects` is exactly the
subsequence of the test-filtered `allProjects` whose `versionChanged` is
true — a stable filter, hence no reordering, duplication, or omission —
and `hasChanges` is true exactly when that subsequence is non-empty. -/
theorem claim4_changed_subsequence (projects : List ProjectVersion)
    (includeTestProjects : Bool) :
    (analyzeResults projects includeTestProjects).projects =
      (if includeTestProjects then projects
       else projects.filter (fun p => !p.isTestProject)) ∧
    (analyzeResults projects includeTestProjects).changedProjects =
      (analyzeResults projects includeTestProjects).projects.filter
        (fun p => p.versionChanged) ∧
    List.Sublist (analyzeResults projects includeTestProjects).changedProjects
      (analyzeResults projects includeTestProjects).projects ∧
    (∀ p : ProjectVersion,
      (analyzeResults projects includeTestProjects).changedProjects.count p =
        if p.versionChanged then
          (analyzeResults projects includeTestProjects).projects.count p
        else 0) ∧
    ((analyzeResults projects includeTestProjects).hasChanges = true ↔
      (analyzeResults projects includeTestProjects).changedProjects ≠ []) := by
  refine ⟨rfl, rfl, List.filter_sublist _, ?_, ?_⟩
  · intro p
    by_cases hp : p.versionChanged
    · rw [if_pos hp]
      exact List.count_filter hp
    · rw [if_neg hp]
      rw [List.count_eq_zero]
      intro hmem
      exact hp (List.of_mem_filter hmem)
  · simp [analyzeResults, List.length_pos]

/-! ## Claim C3: the version map -/

theorem createVersionMap_foldl (rel : Str → Str) (ps : List ProjectVersion)
    (m : VMap) (k : Str) :
    (ps.foldl (fun m p => vmSet (vmSet m p.project p.version) (rel p.path) p.version) m) k
      = ((ps.reverse.find? (fun p => k == p.project || k == rel p.path)).map
          (fun p => p.version)).or (m k) := by
  induction ps generalizing m with
  | nil => simp
  | cons p rest ih =>
    simp only [List.foldl_cons, List.reverse_cons]
    rw [ih, List.find?_append]
    cases hf : rest.reverse.find? (fun p => k == p.project || k == rel p.path) with
    | some q => simp
    | none =>
      simp only [Option.none_or, Option.map_none']
      by_cases h1 : k = rel p.path
      · simp [vmSet, h1, List.find?]
      · by_cases h2 : k = p.project
        · simp [vmSet, h1, h2, List.find?]
        · have hcond : (k == p.project || k == rel p.path) = false := by
            simp [h1, h2]
          simp [vmSet, h1, h2, List.find?, hcond]

/-- C3: the version map is a deterministic function of the record
sequence: a key is bound exactly when it is the `project` name or the
relativized path of some record, its value is that record's version, and on
collision the latest such record wins (two keys per record, inserted in
order). -/
theorem claim3_version_map (rel : Str → Str) (ps : List ProjectVersion) (k : Str) :
    createVersionMap rel ps k =
      (ps.reverse.find? (fun p => k == p.project || k == rel p.path)).map
        (fun p => p.version) ∧
    ((createVersionMap rel ps k).isSome = true ↔
      ∃ p ∈ ps, k = p.project ∨ k = rel p.path) := by
  have main : createVersionMap rel ps k =
      (ps.reverse.find? (fun p => k == p.project || k == rel p.path)).map
        (fun p => p.version) := by
    have h0 := createVersionMap_foldl rel ps (fun _ => none) k
    simpa only [Option.or_none] using h0
  refine ⟨main, ?_⟩
  rw [main, Option.isSome_map']
  rw [List.find?_isSome]
  constructor
  · rintro ⟨p, hp, hpred⟩
    simp only [Bool.or_eq_true, beq_iff_eq] at hpred
    exact ⟨p, List.mem_reverse.mp hp, hpred⟩
  · rintro ⟨p, hp, hpred⟩
    refine ⟨p, List.mem_reverse.mpr hp, ?_⟩
    simpa only [Bool.or_eq_true, beq_iff_eq] using hpred

/-! ## Claim C5: the decomposition round trip -/

theorem digit_not_dotdash (c : Char) (h : c.isDigit = true) : isDotDash c = false := by
  by_contra hc
  rw [Bool.not_eq_false, isDotDash, Bool.or_eq_true, beq_iff_eq, beq_iff_eq] at hc
  rcases hc with rfl | rfl <;> exact absurd h (by decide)

/-- C5 fails on the code as stated: the claim quantifies over every string
matching the semver-like pattern, but `1.2.3-alpha-1` matches the pattern
(prerelease `alpha-1`), and the run's decomposition splits on both `.` and
`-` and rejoins the prerelease parts with `.`, producing `1.2.3-alpha.1`. -/
theorem claim5_counterexample :
    (parseVersion (("1.2.3-alpha-1").data)).isSome = true ∧
    rejoinComponents (splitDecompose (("1.2.3-alpha-1").data)) =
      ("1.2.3-alpha.1").data ∧
    rejoinComponents (splitDecompose (("1.2.3-alpha-1").data)) ≠
      ("1.2.3-alpha-1").data := by
  refine ⟨by decide, by decide, by decide⟩

/-- C5 (amended): for every version string matching the semver-like pattern
whose prerelease suffix contains no dash, decomposing it as the run outputs
do and rejoining with a dot between the numeric parts and a dash before a
non-empty prerelease reproduces the original string. -/
theorem claim5_amended (v : Str) (pv : ParsedVersion) (h : parseVersion v = some pv)
    (hpre : '-' ∉ pv.pre.getD []) :
    rejoinComponents (splitDecompose v) = v := by
  obtain ⟨hv, hma, hmi, hpa, hdma, hdmi, hdpa, hprop⟩ := parseVersion_spec v pv h
  have sepMa : ∀ c ∈ pv.major, isDotDash c = false :=
    fun c hc => digit_not_dotdash c (hdma c hc)
  have sepMi : ∀ c ∈ pv.minor, isDotDash c = false :=
    fun c hc => digit_not_dotdash c (hdmi c hc)
  have sepPa : ∀ c ∈ pv.patch, isDotDash c = false :=
    fun c hc => digit_not_dotdash c (hdpa c hc)
  cases hp : pv.pre with
  | none =>
    have hv2 : v = pv.major ++ '.' :: (pv.minor ++ '.' :: pv.patch) := by
      rw [hv, hp]
      simp
    have hsplit : splitOnSep isDotDash v = [pv.major, pv.minor, pv.patch] := by
      rw [hv2, splitOnSep_append _ _ _ '.' sepMa (by decide),
        splitOnSep_append _ _ _ '.' sepMi (by decide),
        splitOnSep_sepFree _ _ sepPa]
    rw [rejoinComponents, splitDecompose]
    simp only [hsplit]
    simp only [List.getD, List.length_cons, List.length_nil]
    norm_num
    simp [orZero, hma, hmi, hpa, hv2]
  | some pre =>
    rw [hp] at hpre
    simp only [Option.getD_some] at hpre
    have hprene : pre ≠ [] := (hprop pre hp).1
    have hv2 : v = pv.major ++ '.' :: (pv.minor ++ '.' :: (pv.patch ++ '-' :: pre)) := by
      rw [hv, hp]
      simp
    have hsplit : splitOnSep isDotDash v =
        pv.major :: pv.minor :: pv.patch :: splitOnSep isDotDash pre := by
      rw [hv2, splitOnSep_append _ _ _ '.' sepMa (by decide),
        splitOnSep_append _ _ _ '.' sepMi (by decide),
        splitOnSep_append _ _ _ '-' sepPa (by decide)]
    have hjoin : joinSep (['.']) (splitOnSep isDotDash pre) = pre :=
      joinSep_splitOnSep_dot pre hpre
    have hlen : 0 < (splitOnSep isDotDash pre).length :=
      List.length_pos.mpr (splitOnSep_ne_nil _ _)
    rw [rejoinComponents, splitDecompose]
    simp only [hsplit]
    simp only [List.getD, List.length_cons]
    have hcond : 3 < (splitOnSep isDotDash pre).length + 1 + 1 + 1 := by omega
    rw [if_pos hcond]
    simp only [List.drop_succ_cons, List.drop_zero, hjoin]
    rw [if_neg hprene]
    simp [orZero, hma, hmi, hpa, hv2]

/-- Witness for C5 (amended) at the version `1.2.3-beta.2`. -/
theorem claim5_witness :
    parseVersion (("1.2.3-beta.2").data) =
      some ⟨("1").data, ("2").data, ("3").data, some (("beta.2").data)⟩ ∧
    rejoinComponents (splitDecompose (("1.2.3-beta.2").data)) = ("1.2.3-beta.2").data :=
  ⟨by decide,
   claim5_amended (("1.2.3-beta.2").data)
     ⟨("1").data, ("2").data, ("3").data, some (("beta.2").data)⟩
     (by decide) (by decide)⟩

/-! ## Claim C8: empty discovery with fail-on-no-changes disabled -/

/-- C8: when zero manifests are discovered and fail-on-no-changes is
disabled, the run succeeds with an empty project list and emits the default
component outputs `0.1.0` / `0` / `1` / `0` / empty prerelease. -/
theorem claim8_empty_discovery (rel : Str → Str) (oracle : Str → Except Str ProjectVersion)
    (jsonOf : VersionCalculationResult → Str) (fs0 : Fs) (inp : RunInputs)
    (h : inp.failOnNoChanges = false) :
    (runModel rel oracle jsonOf fs0 inp []).failedMsg = none ∧
    ∃ o, (runModel rel oracle jsonOf fs0 inp []).outputs = some o ∧
      o.projects = [] ∧ o.version = ("0.1.0").data ∧ o.major = ("0").data ∧
      o.minor = ("1").data ∧ o.patch = ("0").data ∧ o.prerelease = [] := by
  obtain ⟨f1, f2, f3, f4, f5, f6, f7⟩ := inp
  simp only at h
  subst h
  cases f5 <;>
    simp [runModel, collectResults, analyzeResults, versionComponents]

/-- Witness for C8 at concrete parameters. -/
theorem claim8_witness :
    quietInputs.failOnNoChanges = false ∧
    ((runModel (fun s => s) oracleAB (fun _ => []) (fun _ => none) quietInputs
        []).failedMsg = none ∧
     ∃ o, (runModel (fun s => s) oracleAB (fun _ => []) (fun _ => none) quietInputs
        []).outputs = some o ∧
       o.projects = [] ∧ o.version = ("0.1.0").data ∧ o.major = ("0").data ∧
       o.minor = ("1").data ∧ o.patch = ("0").data ∧ o.prerelease = []) :=
  ⟨rfl, claim8_empty_discovery (fun s => s) oracleAB (fun _ => []) (fun _ => none)
    quietInputs rfl⟩

/-! ## Claim C1: the individual version-component outputs -/

/-- C1 fails on the code as stated: the component outputs come from the
first project of the filtered list, not from the first changed project
(record A is unchanged at `1.2.3`, record B is the first changed project at
`4.5.6`, and the `version` output is `1.2.3`); and with no projects the
defaults are `0.1.0` with minor `1`, not `0`/`0`/`0`. -/
theorem claim1_counterexample :
    ((runModel (fun s => s) oracleAB (fun _ => []) (fun _ => none) quietInputs
        [recA.path, recB.path]).outputs.map (fun o => o.version)) =
      some (("1.2.3").data) ∧
    ((analyzeResults [recA, recB] true).changedProjects.map
        (fun p => p.version)).head? = some (("4.5.6").data) ∧
    ("1.2.3").data ≠ ("4.5.6").data ∧
    ((runModel (fun s => s) oracleAB (fun _ => []) (fun _ => none) quietInputs
        []).outputs.map (fun o => o.minor)) = some (("1").data) ∧
    ("1").data ≠ ("0").data := by
  exact ⟨by decide, by decide, by decide, by decide, by decide⟩

/-- C1 (amended): the run's individual version component outputs are the
first (filtered) project's version together with its split-decomposition
into major/minor/patch/prerelease, and default to version `0.1.0` with
components `0`/`1`/`0` and empty prerelease when no project exists. -/
theorem claim1_amended (rel : Str → Str) (oracle : Str → Except Str ProjectVersion)
    (jsonOf : VersionCalculationResult → Str) (fs0 : Fs) (inp : RunInputs)
    (files : List Str) (results : List ProjectVersion)
    (hfiles : ¬(files.length = 0 ∧ inp.failOnNoChanges = true))
    (hok : collectResults oracle files = .ok results)
    (hgate : inp.failOnNoChanges = true →
      (analyzeResults results inp.includeTestProjects).hasChanges = true) :
    ∃ o, (runModel rel oracle jsonOf fs0 inp files).outputs = some o ∧
      (o.version, o.major, o.minor, o.patch, o.prerelease) =
        versionComponents (analyzeResults results inp.includeTestProjects).projects ∧
      ((analyzeResults results inp.includeTestProjects).projects = [] →
        (o.version, o.major, o.minor, o.patch, o.prerelease) =
          (("0.1.0").data, ("0").data, ("1").data, ("0").data, ([] : Str))) ∧
      (∀ fp rest,
        (analyzeResults results inp.includeTestProjects).projects = fp :: rest →
        o.version = fp.version ∧
        (o.major, o.minor, o.patch, o.prerelease) =
          ((splitDecompose fp.version).1, (splitDecompose fp.version).2.1,
           (splitDecompose fp.version).2.2.1, (splitDecompose fp.version).2.2.2)) := by
  have hgate2 : ¬(inp.failOnNoChanges = true ∧
      (analyzeResults results inp.includeTestProjects).hasChanges = false) := by
    rintro ⟨hf, hc⟩
    rw [hgate hf] at hc
    exact absurd hc (by decide)
  rw [runModel, if_neg hfiles, hok]
  simp only []
  rw [if_neg hgate2]
  refine ⟨_, rfl, rfl, ?_, ?_⟩
  · intro he
    rw [he]
    rfl
  · intro fp rest hcons
    rw [hcons]
    exact ⟨rfl, rfl⟩

/-- Witness for C1 (amended) with one discovered record. -/
theorem claim1_witness :
    (¬(([recA.path] : List Str).length = 0 ∧ quietInputs.failOnNoChanges = true)) ∧
    collectResults oracleAB [recA.path] = .ok [recA] ∧
    (∃ o, (runModel (fun s => s) oracleAB (fun _ => []) (fun _ => none) quietInputs
        [recA.path]).outputs = some o ∧
      (o.version, o.major, o.minor, o.patch, o.prerelease) =
        versionComponents (analyzeResults [recA] quietInputs.includeTestProjects).projects ∧
      ((analyzeResults [recA] quietInputs.includeTestProjects).projects = [] →
        (o.version, o.major, o.minor, o.patch, o.prerelease) =
          (("0.1.0").data, ("0").data, ("1").data, ("0").data, ([] : Str))) ∧
      (∀ fp rest,
        (analyzeResults [recA] quietInputs.includeTestProjects).projects = fp :: rest →
        o.version = fp.version ∧
        (o.major, o.minor, o.patch, o.prerelease) =
          ((splitDecompose fp.version).1, (splitDecompose fp.version).2.1,
           (splitDecompose fp.version).2.2.1, (splitDecompose fp.version).2.2.2))) :=
  ⟨by decide, rfl,
   claim1_amended (fun s => s) oracleAB (fun _ => []) (fun _ => none) quietInputs
     [recA.path] [recA] (by decide) rfl
     (fun hf => absurd hf (by decide))⟩

/-! ## Claim C7: per-record failure containment in `updateProjects` -/

/-- C7: `updateProjects` processes the head record and then always
continues with the remaining records from the reached state; any error
raised by the manifest update or by the companion-file write is caught by
the per-record handler and downgraded to a warning that names the failing
project (the loop itself never propagates an error — its result type has no
error case). -/
theorem claim7_failure_containment (fs : Fs) (p : ProjectVersion)
    (rest : List ProjectVersion) (u w : Bool) :
    updateProjects fs (p :: rest) u w =
      ((updateProjects (processProject fs p u w).1 rest u w).1,
       (processProject fs p u w).2 ++
         (updateProjects (processProject fs p u w).1 rest u w).2) ∧
    (∀ e, (if u = true then updateProjectFile fs p else .ok (fs, [])) = .error e →
      processProject fs p u w = (fs, [.warning (failedUpdateMsg p e)])) ∧
    (∀ fs1 l1 e,
      (if u = true then updateProjectFile fs p else .ok (fs, [])) = .ok (fs1, l1) →
      (if w = true then writeMrVersionPropsFile fs1 p else .ok (fs1, [])) = .error e →
      processProject fs p u w = (fs1, l1 ++ [.warning (failedUpdateMsg p e)])) := by
  refine ⟨rfl, ?_, ?_⟩
  · intro e he
    unfold processProject
    rw [he]
  · intro fs1 l1 e h1 h2
    have hmid : processProject fs p u w =
        (match (if w = true then writeMrVersionPropsFile fs1 p else .ok (fs1, [])) with
         | .error e => (fs1, l1 ++ [.warning (failedUpdateMsg p e)])
         | .ok (fs2, l2) => (fs2, l1 ++ l2)) := by
      unfold processProject
      rw [h1]
    rw [hmid, h2]

/-- Witness for C7: a record whose manifest file is missing is caught and
logged as a warning naming the project, with the file system unchanged. -/
theorem claim7_witness :
    (if true = true then updateProjectFile (fun _ => none : Fs) recGhost
     else .ok ((fun _ => none : Fs), [])) =
      .error (("ENOENT: no such file or directory, open ").data ++ recGhost.path) ∧
    processProject (fun _ => none : Fs) recGhost true false =
      ((fun _ => none : Fs),
       [.warning (failedUpdateMsg recGhost
          (("ENOENT: no such file or directory, open ").data ++ recGhost.path))]) :=
  ⟨rfl, (claim7_failure_containment (fun _ => none) recGhost [] true false).2.1 _ rfl⟩

/-! ## Claim C9: companion-file generation -/

/-- C9: for a record with a parseable version, the companion file write is
total and deterministic — the content written is `mrPropsContent`, a
function of the record alone, whatever the prior file system — and the
embedded components satisfy
`version = major ++ "." ++ minor ++ "." ++ patch (++ "-" ++ prerelease)`. -/
theorem claim9_companion_file (fs : Fs) (p : ProjectVersion) (pv : ParsedVersion)
    (h : parseVersion p.version = some pv) :
    writeMrVersionPropsFile fs p =
      .ok (Fs.update fs (posixDirname p.path ++ ("/MrVersion.props").data)
             (mrPropsContent p pv),
           [.info (("Created MrVersion.props for ").data ++ p.project)]) ∧
    (∀ fs2 : Fs,
      (match writeMrVersionPropsFile fs2 p with
       | .ok r => r.1 (posixDirname p.path ++ ("/MrVersion.props").data)
       | .error _ => none) = some (mrPropsContent p pv)) ∧
    p.version = pv.major ++ '.' :: pv.minor ++ '.' :: pv.patch ++
        (match pv.pre with | none => [] | some pre => '-' :: pre) := by
  have h1 : ∀ fs2 : Fs, writeMrVersionPropsFile fs2 p =
      .ok (Fs.update fs2 (posixDirname p.path ++ ("/MrVersion.props").data)
             (mrPropsContent p pv),
           [.info (("Created MrVersion.props for ").data ++ p.project)]) := by
    intro fs2
    unfold writeMrVersionPropsFile
    rw [h]
  refine ⟨h1 fs, ?_, (parseVersion_spec p.version pv h).1⟩
  intro fs2
  rw [h1 fs2]
  simp [Fs.update]

/-- Witness for C9 at the record `recB` (version `4.5.6`). -/
theorem claim9_witness :
    parseVersion recB.version =
      some ⟨("4").data, ("5").data, ("6").data, none⟩ ∧
    recB.version = ("4").data ++ '.' :: ("5").data ++ '.' :: ("6").data ++
      (match (none : Option Str) with | none => [] | some pre => '-' :: pre) :=
  ⟨by decide,
   (claim9_companion_file (fun _ => none) recB
     ⟨("4").data, ("5").data, ("6").data, none⟩ (by decide)).2.2⟩

/-! ## Claim C6: a pattern-mismatched version is recoverable -/

theorem joinSep_infix_of_mem (sep l : Str) (ls : List Str) (h : l ∈ ls) :
    ∃ u v2, joinSep sep ls = u ++ l ++ v2 := by
  induction ls with
  | nil => cases h
  | cons x xs ih =>
    rcases List.mem_cons.mp h with rfl | hmem
    · cases xs with
      | nil => exact ⟨[], [], by simp [joinSep]⟩
      | cons y ys =>
        refine ⟨[], sep ++ joinSep sep (y :: ys), ?_⟩
        rw [joinSep_cons_of_ne_nil _ _ _ (by simp)]
        simp
    · obtain ⟨u, v2, hu⟩ := ih hmem
      have hxs : xs ≠ [] := List.ne_nil_of_mem hmem
      refine ⟨x ++ sep ++ u, v2, ?_⟩
      rw [joinSep_cons_of_ne_nil _ _ _ hxs, hu]
      simp

/-- The summary produced by `analyzeResults` (with test projects included)
contains the record's own line, changed or unchanged. -/
theorem summary_contains_record (ps : List ProjectVersion) (p : ProjectVersion)
    (hp : p ∈ ps) :
    ∃ u v2, (analyzeResults ps true).summary =
      u ++ (if p.versionChanged = true then changedLine p else unchangedLine p) ++ v2 := by
  have hsum : (analyzeResults ps true).summary =
      joinSep (['\n']) (summaryLines ps (ps.filter (fun q => q.versionChanged))) := rfl
  by_cases hch : p.versionChanged = true
  · have hpin : p ∈ ps.filter (fun q => q.versionChanged) :=
      List.mem_filter.mpr ⟨hp, hch⟩
    have hne : 0 < (ps.filter (fun q => q.versionChanged)).length :=
      List.length_pos.mpr (List.ne_nil_of_mem hpin)
    have hline : changedLine p ∈
        summaryLines ps (ps.filter (fun q => q.versionChanged)) := by
      unfold summaryLines
      rw [if_pos hne]
      refine List.mem_append.mpr (.inl ?_)
      refine List.mem_append.mpr (.inr ?_)
      exact List.mem_append.mpr (.inr (List.mem_map_of_mem _ hpin))
    obtain ⟨u, v2, hu⟩ := joinSep_infix_of_mem (['\n']) _ _ hline
    exact ⟨u, v2, by rw [hsum, hu, if_pos hch]⟩
  · have hch2 : p.versionChanged = false := by
      cases hcc : p.versionChanged
      · rfl
      · exact absurd hcc hch
    have hpin : p ∈ ps.filter (fun q => !q.versionChanged) :=
      List.mem_filter.mpr ⟨hp, by rw [hch2]; rfl⟩
    have hlt : (ps.filter (fun q => q.versionChanged)).length < ps.length := by
      rw [List.length_filter_lt_length_iff_exists]
      exact ⟨p, hp, by rw [hch2]; simp⟩
    have hpos : 0 < (ps.length : Int) -
        ((ps.filter (fun q => q.versionChanged)).length : Int) := by
      have : ((ps.filter (fun q => q.versionChanged)).length : Int) < (ps.length : Int) := by
        exact_mod_cast hlt
      omega
    have hline : unchangedLine p ∈
        summaryLines ps (ps.filter (fun q => q.versionChanged)) := by
      unfold summaryLines
      rw [if_pos hpos]
      refine List.mem_append.mpr (.inr ?_)
      exact List.mem_append.mpr (.inr (List.mem_map_of_mem _ hpin))
    obtain ⟨u, v2, hu⟩ := joinSep_infix_of_mem (['\n']) _ _ hline
    exact ⟨u, v2, by rw [hsum, hu, if_neg hch]⟩

/-- C6: a record whose version fails the semver-like pattern, with mutation
enabled: the read succeeds, a warning is emitted, the manifest is left
byte-for-byte unchanged (the file system is untouched), the batch continues
with the remaining records, and the record still contributes its two
version-map keys and its summary line. -/
theorem claim6_pattern_mismatch (fs : Fs) (content : Str) (p : ProjectVersion)
    (rest : List ProjectVersion) (w : Bool) (rel : Str → Str)
    (ps1 : List ProjectVersion)
    (hread : fs p.path = some content)
    (hbad : parseVersion p.version = none) :
    updateProjectFile fs p = .ok (fs, [.warning (cannotParseMsg p)]) ∧
    (processProject fs p true w).1 = fs ∧
    LogEntry.warning (cannotParseMsg p) ∈ (processProject fs p true w).2 ∧
    updateProjects fs (p :: rest) true w =
      ((updateProjects fs rest true w).1,
        (processProject fs p true w).2 ++ (updateProjects fs rest true w).2) ∧
    createVersionMap rel (ps1 ++ [p]) p.project = some p.version ∧
    createVersionMap rel (ps1 ++ [p]) (rel p.path) = some p.version ∧
    (∃ u v2, (analyzeResults (ps1 ++ [p]) true).summary =
      u ++ (if p.versionChanged = true then changedLine p else unchangedLine p) ++ v2) := by
  have hupd : updateProjectFile fs p = .ok (fs, [.warning (cannotParseMsg p)]) := by
    unfold updateProjectFile
    rw [hread, hbad]
  have hproc : processProject fs p true w = (fs,
      .warning (cannotParseMsg p) ::
        (if w = true then [.warning (cannotParseMsg p)] else [])) := by
    unfold processProject
    rw [if_pos rfl, hupd]
    cases w
    · simp
    · rw [if_pos rfl]
      unfold writeMrVersionPropsFile
      rw [hbad]
      simp
  refine ⟨hupd, by rw [hproc], by rw [hproc]; exact List.mem_cons_self _ _, ?_, ?_, ?_,
    summary_contains_record _ p (by simp)⟩
  · show updateProjects fs (p :: rest) true w = _
    conv_lhs => rw [updateProjects]
    rw [hproc]
  · have h0 := createVersionMap_foldl rel (ps1 ++ [p]) (fun _ => none) p.project
    simp only [Option.or_none] at h0
    have hk : createVersionMap rel (ps1 ++ [p]) p.project =
        ((ps1 ++ [p]).reverse.find?
          (fun q => p.project == q.project || p.project == rel q.path)).map
          (fun q => q.version) := h0
    rw [hk, List.reverse_append]
    simp only [List.reverse_cons, List.reverse_nil, List.nil_append, List.singleton_append]
    rw [List.find?_cons_of_pos _ (by simp)]
    simp
  · have h0 := createVersionMap_foldl rel (ps1 ++ [p]) (fun _ => none) (rel p.path)
    simp only [Option.or_none] at h0
    have hk : createVersionMap rel (ps1 ++ [p]) (rel p.path) =
        ((ps1 ++ [p]).reverse.find?
          (fun q => rel p.path == q.project || rel p.path == rel q.path)).map
          (fun q => q.version) := h0
    rw [hk, List.reverse_append]
    simp only [List.reverse_cons, List.reverse_nil, List.nil_append, List.singleton_append]
    rw [List.find?_cons_of_pos _ (by simp)]
    simp

/-- Witness for C6: the record with version `not-a-version` and its
manifest present leaves the file system untouched and warns. -/
theorem claim6_witness :
    fsBad recBad.path = some plainContent ∧
    parseVersion recBad.version = none ∧
    updateProjectFile fsBad recBad = .ok (fsBad, [.warning (cannotParseMsg recBad)]) :=
  ⟨rfl, by decide,
   (claim6_pattern_mismatch fsBad plainContent recBad [] false (fun s => s) []
     rfl (by decide)).1⟩

/-! ## Occurrence infrastructure for the replace proofs -/

theorem leadsWith_iff (pat s : Str) : leadsWith pat s = true ↔ ∃ w, s = pat ++ w := by
  induction pat generalizing s with
  | nil => simp [leadsWith]
  | cons p ps ih =>
    cases s with
    | nil =>
      simp [leadsWith]
    | cons c cs =>
      rw [leadsWith, Bool.and_eq_true, beq_iff_eq, ih]
      constructor
      · rintro ⟨rfl, w, rfl⟩
        exact ⟨w, rfl⟩
      · rintro ⟨w, hw⟩
        rw [List.cons_append] at hw
        obtain ⟨rfl, hw2⟩ := List.cons.inj hw
        exact ⟨rfl, w, hw2⟩

theorem occursAt_zero (pat s : Str) : occursAt pat s 0 ↔ ∃ w, s = pat ++ w := by
  constructor
  · rintro ⟨u, w, rfl, hu⟩
    rw [List.length_eq_zero] at hu
    subst hu
    exact ⟨w, rfl⟩
  · rintro ⟨w, rfl⟩
    exact ⟨[], w, rfl, rfl⟩

theorem occursAt_cons_succ (pat : Str) (c : Char) (s : Str) (i : Nat) :
    occursAt pat (c :: s) (i + 1) ↔ occursAt pat s i := by
  constructor
  · rintro ⟨u, w, heq, hu⟩
    cases u with
    | nil => simp at hu
    | cons d u2 =>
      rw [List.cons_append, List.cons_append] at heq
      obtain ⟨rfl, heq2⟩ := List.cons.inj heq
      exact ⟨u2, w, by simpa using heq2, by simpa using hu⟩
  · rintro ⟨u, w, rfl, rfl⟩
    exact ⟨c :: u, w, rfl, by simp⟩

theorem occursAt_nil (pat : Str) (i : Nat) :
    occursAt pat [] i ↔ (pat = [] ∧ i = 0) := by
  constructor
  · rintro ⟨u, w, heq, rfl⟩
    have h1 := List.append_eq_nil.mp heq.symm
    have h2 := List.append_eq_nil.mp h1.1
    exact ⟨h2.2, by simp [h2.1]⟩
  · rintro ⟨rfl, rfl⟩
    exact ⟨[], [], rfl, rfl⟩

theorem occursAt_length {pat s : Str} {i : Nat} (h : occursAt pat s i) :
    i + pat.length ≤ s.length := by
  obtain ⟨u, w, rfl, rfl⟩ := h
  simp

theorem firstOcc_spec (pat : Str) : ∀ s : Str,
    (∀ p, firstOcc pat s = some p → occursAt pat s p ∧ ∀ q, q < p → ¬ occursAt pat s q) ∧
    (firstOcc pat s = none → ∀ i, ¬ occursAt pat s i) := by
  intro s
  induction s with
  | nil =>
    constructor
    · intro p hp
      rw [firstOcc] at hp
      split at hp
      next hl =>
        rw [Option.some_inj] at hp
        subst hp
        rw [leadsWith_iff] at hl
        obtain ⟨w, hw⟩ := hl
        obtain ⟨h1, h2⟩ := List.append_eq_nil.mp hw.symm
        refine ⟨⟨[], [], by simp [h1], rfl⟩, ?_⟩
        intro q hq
        omega
      · cases hp
    · intro h i hocc
      rw [firstOcc] at h
      split at h
      · cases h
      next hl =>
        rw [occursAt_nil] at hocc
        rw [hocc.1] at hl
        exact hl rfl
  | cons c cs ih =>
    constructor
    · intro p hp
      rw [firstOcc] at hp
      split at hp
      next hl =>
        rw [Option.some_inj] at hp
        subst hp
        rw [leadsWith_iff] at hl
        obtain ⟨w, hw⟩ := hl
        refine ⟨⟨[], w, by simpa using hw, rfl⟩, ?_⟩
        intro q hq
        omega
      next hl =>
        rw [Option.map_eq_some'] at hp
        obtain ⟨p0, hp0, rfl⟩ := hp
        obtain ⟨hocc0, hmin0⟩ := ih.1 p0 hp0
        refine ⟨(occursAt_cons_succ pat c cs p0).mpr hocc0, ?_⟩
        intro q hq hocc
        cases q with
        | zero =>
          rw [occursAt_zero] at hocc
          rw [leadsWith_iff] at hl
          exact hl hocc
        | succ j =>
          rw [occursAt_cons_succ] at hocc
          exact hmin0 j (by omega) hocc
    · intro h i hocc
      rw [firstOcc] at h
      split at h
      · cases h
      next hl =>
        rw [Option.map_eq_none'] at h
        cases i with
        | zero =>
          rw [occursAt_zero] at hocc
          rw [leadsWith_iff] at hl
          exact hl hocc
        | succ j =>
          rw [occursAt_cons_succ] at hocc
          exact ih.2 h j hocc

theorem lastOcc_spec (pat : Str) : ∀ s : Str,
    (∀ k, lastOcc pat s = some k → occursAt pat s k ∧ ∀ q, occursAt pat s q → q ≤ k) ∧
    (lastOcc pat s = none → ∀ i, ¬ occursAt pat s i) := by
  intro s
  induction s with
  | nil =>
    constructor
    · intro k hk
      rw [lastOcc] at hk
      split at hk
      next hl =>
        rw [Option.some_inj] at hk
        subst hk
        rw [leadsWith_iff] at hl
        obtain ⟨w, hw⟩ := hl
        obtain ⟨h1, h2⟩ := List.append_eq_nil.mp hw.symm
        refine ⟨⟨[], [], by simp [h1], rfl⟩, ?_⟩
        intro q hq
        rw [occursAt_nil] at hq
        omega
      · cases hk
    · intro h i hocc
      rw [lastOcc] at h
      split at h
      · cases h
      next hl =>
        rw [occursAt_nil] at hocc
        rw [hocc.1] at hl
        exact hl rfl
  | cons c cs ih =>
    constructor
    · intro k hk
      rw [lastOcc] at hk
      split at hk
      next i0 htail =>
        rw [Option.some_inj] at hk
        subst hk
        obtain ⟨hocc0, hmax0⟩ := ih.1 i0 htail
        refine ⟨(occursAt_cons_succ pat c cs i0).mpr hocc0, ?_⟩
        intro q hq
        cases q with
        | zero => omega
        | succ j =>
          rw [occursAt_cons_succ] at hq
          have := hmax0 j hq
          omega
      next htail =>
        split at hk
        next hl =>
          rw [Option.some_inj] at hk
          subst hk
          rw [leadsWith_iff] at hl
          obtain ⟨w, hw⟩ := hl
          refine ⟨⟨[], w, by simpa using hw, rfl⟩, ?_⟩
          intro q hq
          cases q with
          | zero => omega
          | succ j =>
            rw [occursAt_cons_succ] at hq
            exact absurd hq (ih.2 htail j)
        · cases hk
    · intro h i hocc
      rw [lastOcc] at h
      split at h
      · cases h
      next htail =>
        split at h
        · cases h
        next hl =>
          cases i with
          | zero =>
            rw [occursAt_zero] at hocc
            rw [leadsWith_iff] at hl
            exact hl hocc
          | succ j =>
            rw [occursAt_cons_succ] at hocc
            exact ih.2 htail j hocc

theorem firstOcc_eq_some_of (pat s : Str) (p : Nat) (hocc : occursAt pat s p)
    (hmin : ∀ q, q < p → ¬ occursAt pat s q) : firstOcc pat s = some p := by
  cases hf : firstOcc pat s with
  | none => exact absurd hocc ((firstOcc_spec pat s).2 hf p)
  | some p2 =>
    obtain ⟨hocc2, hmin2⟩ := (firstOcc_spec pat s).1 p2 hf
    have h1 : ¬ p2 < p := fun hh => hmin p2 hh hocc2
    have h2 : ¬ p < p2 := fun hh => hmin2 p hh hocc
    have : p2 = p := by omega
    rw [this]

theorem lastOcc_eq_some_of (pat s : Str) (k : Nat) (hocc : occursAt pat s k)
    (hmax : ∀ q, occursAt pat s q → q ≤ k) : lastOcc pat s = some k := by
  cases hf : lastOcc pat s with
  | none => exact absurd hocc ((lastOcc_spec pat s).2 hf k)
  | some k2 =>
    obtain ⟨hocc2, hmax2⟩ := (lastOcc_spec pat s).1 k2 hf
    have h1 := hmax k2 hocc2
    have h2 := hmax2 k hocc
    have : k2 = k := by omega
    rw [this]

theorem occursAt_append_left {pat a : Str} (b : Str) {i : Nat} (h : occursAt pat a i) :
    occursAt pat (a ++ b) i := by
  obtain ⟨u, w, rfl, rfl⟩ := h
  exact ⟨u, w ++ b, by simp, rfl⟩

theorem occursAt_append_right {pat b : Str} (a : Str) {i : Nat} (h : occursAt pat b i) :
    occursAt pat (a ++ b) (a.length + i) := by
  obtain ⟨u, w, rfl, rfl⟩ := h
  exact ⟨a ++ u, w, by simp, by simp⟩

theorem occursAt_getD {pat s : Str} {i : Nat} (h : occursAt pat s i) (j : Nat)
    (hj : j < pat.length) (d : Char) : s.getD (i + j) d = pat.getD j d := by
  obtain ⟨u, w, rfl, rfl⟩ := h
  rw [List.append_assoc]
  rw [List.getD_append_right _ _ _ _ (by omega)]
  rw [List.getD_append _ _ _ _ (by omega)]
  congr 1
  omega

theorem getD_mem_of_lt (l : Str) (d : Char) (n : Nat) (h : n < l.length) :
    l.getD n d ∈ l := by
  rw [List.getD_eq_getElem l d h]
  exact List.getElem_mem h

/-- Where an occurrence inside an append can sit: fully in the left part,
fully in the right part, or spanning the border — in which case the pattern
splits into a non-empty suffix of the left part and a non-empty prefix of
the right part. -/
theorem occursAt_append_cases {pat a b : Str} {i : Nat} (h : occursAt pat (a ++ b) i) :
    (i + pat.length ≤ a.length ∧ occursAt pat a i) ∨
    (a.length ≤ i ∧ occursAt pat b (i - a.length)) ∨
    (∃ c2 p2, pat = c2 ++ p2 ∧ c2 ≠ [] ∧ p2 ≠ [] ∧
      occursAt c2 a i ∧ i + c2.length = a.length ∧ ∃ w2, b = p2 ++ w2) := by
  obtain ⟨u, w, heq, rfl⟩ := h
  rw [List.append_assoc] at heq
  rcases List.append_eq_append_iff.mp heq with ⟨m, hm1, hm2⟩ | ⟨m, hm1, hm2⟩
  · refine .inr (.inl ⟨by simp [hm1], ?_⟩)
    have : u.length - a.length = m.length := by simp [hm1]
    rw [this]
    rw [← List.append_assoc] at hm2
    exact ⟨m, w, hm2, rfl⟩
  · rcases List.append_eq_append_iff.mp hm2 with ⟨p2, hp1, hp2⟩ | ⟨q, hq1, hq2⟩
    · refine .inl ⟨?_, ⟨u, p2, ?_, rfl⟩⟩
      · rw [hm1, hp1]
        simp
      · rw [hm1, hp1, List.append_assoc]
    · cases hq0 : q with
      | nil =>
        subst hq0
        rw [List.append_nil] at hq1
        refine .inl ⟨?_, ⟨u, [], ?_, rfl⟩⟩
        · rw [hm1, hq1]
          simp
        · rw [hm1, hq1]
          simp
      | cons qh qt =>
        cases hc0 : m with
        | nil =>
          subst hc0
          rw [List.append_nil] at hm1
          refine .inr (.inl ⟨by rw [hm1], ?_⟩)
          rw [hm1, Nat.sub_self]
          rw [occursAt_zero]
          exact ⟨w, by rw [hq2, hq1]; simp⟩
        | cons mh mt =>
          refine .inr (.inr ⟨m, q, hq1, by rw [hc0]; simp, by rw [hq0]; simp,
            ⟨u, [], by rw [hm1]; simp, rfl⟩, by rw [hm1]; simp, w, by rw [hq2, hq0]⟩)

/-- A tag that is an initial segment of another tag followed by anything is
that tag itself. -/
theorem tag_prefix_eq {P Q : Str} (hP : TagStr P) (hQ : TagStr Q) {r w : Str}
    (h : Q ++ r = P ++ w) : P = Q := by
  obtain ⟨hPne, hPlt, hPgt, hPhead, hPlast⟩ := hP
  obtain ⟨hQne, hQlt, hQgt, hQhead, hQlast⟩ := hQ
  have hPpos : 0 < P.length := List.length_pos.mpr hPne
  have hQpos : 0 < Q.length := List.length_pos.mpr hQne
  by_cases hlen : P.length ≤ Q.length
  · have e1 : Q.getD (P.length - 1) ' ' = '>' := by
      have l1 : (Q ++ r).getD (P.length - 1) ' ' = Q.getD (P.length - 1) ' ' :=
        List.getD_append _ _ _ _ (by omega)
      have l2 : (P ++ w).getD (P.length - 1) ' ' = P.getD (P.length - 1) ' ' :=
        List.getD_append _ _ _ _ (by omega)
      rw [← l1, h, l2, hPlast]
    have hidx := hQgt (P.length - 1) (by omega) e1
    have hlen2 : Q.length = P.length := by omega
    exact (List.append_inj h (by omega)).1.symm
  · have e1 : P.getD (Q.length - 1) ' ' = '>' := by
      have l1 : (Q ++ r).getD (Q.length - 1) ' ' = Q.getD (Q.length - 1) ' ' :=
        List.getD_append _ _ _ _ (by omega)
      have l2 : (P ++ w).getD (Q.length - 1) ' ' = P.getD (Q.length - 1) ' ' :=
        List.getD_append _ _ _ _ (by omega)
      rw [← l2, ← h, l1, hQlast]
    have hidx := hPgt (Q.length - 1) (by omega) e1
    omega

/-- The only tag occurrences inside a freshly written element
`topen ++ val ++ tclose` with a `<`-free value are the element's own
opening tag at the start and closing tag before the end. -/
theorem occursAt_in_repl {P o c val : Str} (hP : TagStr P) (ho : TagStr o) (hc : TagStr c)
    (hval : '<' ∉ val) {j : Nat} (h : occursAt P (o ++ val ++ c) j) :
    (P = o ∧ j = 0) ∨ (P = c ∧ j = o.length + val.length) := by
  have hPpos : 0 < P.length := List.length_pos.mpr hP.1
  have hopos : 0 < o.length := List.length_pos.mpr ho.1
  have hcpos : 0 < c.length := List.length_pos.mpr hc.1
  have hlen := occursAt_length h
  simp only [List.length_append] at hlen
  have hj : (o ++ val ++ c).getD j ' ' = '<' := by
    have e := occursAt_getD h 0 (by omega) ' '
    rw [Nat.add_zero] at e
    rw [e, hP.2.2.2.1]
  by_cases h1 : j < o.length
  · have : o.getD j ' ' = '<' := by
      rw [← List.getD_append o (val ++ c) ' ' j h1]
      rw [← List.append_assoc]
      exact hj
    have hj0 := ho.2.1 j h1 this
    subst hj0
    obtain ⟨u, w, heq, hu⟩ := h
    rw [List.length_eq_zero] at hu
    subst hu
    rw [List.nil_append] at heq
    left
    refine ⟨?_, rfl⟩
    rw [List.append_assoc] at heq
    exact tag_prefix_eq hP ho heq
  · by_cases h2 : j < o.length + val.length
    · exfalso
      have : val.getD (j - o.length) ' ' = '<' := by
      -- (o ++ val ++ c).getD j with o.length ≤ j < o.length + val.length
        rw [← hj, List.append_assoc, List.getD_append_right _ _ _ _ (by omega)]
        rw [List.getD_append _ _ _ _ (by omega)]
      exact hval (by
        rw [← this]
        exact getD_mem_of_lt val ' ' (j - o.length) (by omega))
    · have hcidx : c.getD (j - o.length - val.length) ' ' = '<' := by
        rw [← hj, List.append_assoc, List.getD_append_right _ _ _ _ (by omega)]
        rw [List.getD_append_right _ _ _ _ (by omega)]
      have hj0 := hc.2.1 (j - o.length - val.length) (by omega) hcidx
      have hje : j = o.length + val.length := by omega
      subst hje
      right
      refine ⟨?_, rfl⟩
      obtain ⟨u, w, heq, hu⟩ := h
      rw [List.append_assoc u P w] at heq
      have hul : (o ++ val).length = u.length := by
        simp [hu]
      obtain ⟨huv, hcw⟩ := List.append_inj heq hul
      exact tag_prefix_eq hP hc (r := []) (w := w) (by rw [List.append_nil]; exact hcw)

theorem occursAt_of_take {pat l : Str} {n i : Nat} (h : occursAt pat (l.take n) i) :
    occursAt pat l i := by
  have h2 := occursAt_append_left (l.drop n) h
  rw [List.take_append_drop] at h2
  exact h2

theorem occursAt_of_drop {pat l : Str} {n i : Nat} (hn : n ≤ l.length)
    (h : occursAt pat (l.drop n) i) : occursAt pat l (n + i) := by
  have h2 := occursAt_append_right (l.take n) h
  rw [List.take_append_drop] at h2
  rw [List.length_take, Nat.min_eq_left hn] at h2
  exact h2

/-- A tag occurrence cannot span a border whose right side begins with `<`. -/
theorem no_cross_into_lt {P a b : Str} (hP : TagStr P) {i : Nat}
    (h : occursAt P (a ++ b) i) (hb : b.getD 0 ' ' = '<') :
    (i + P.length ≤ a.length ∧ occursAt P a i) ∨
    (a.length ≤ i ∧ occursAt P b (i - a.length)) := by
  rcases occursAt_append_cases h with h1 | h2 | ⟨c2, p2, hpat, hc2, hp2, hocc, hlen, w2, hw2⟩
  · exact .inl h1
  · exact .inr h2
  · exfalso
    have hc2pos : 0 < c2.length := List.length_pos.mpr hc2
    have hp2pos : 0 < p2.length := List.length_pos.mpr hp2
    have e1 : P.getD c2.length ' ' = p2.getD 0 ' ' := by
      rw [hpat, List.getD_append_right _ _ _ _ (le_refl _), Nat.sub_self]
    have e2 : b.getD 0 ' ' = p2.getD 0 ' ' := by
      rw [hw2, List.getD_append _ _ _ _ hp2pos]
    have hPlen : c2.length < P.length := by
      rw [hpat, List.length_append]
      omega
    have := hP.2.1 c2.length hPlen (by rw [e1, ← e2, hb])
    omega

/-- A tag occurrence cannot span a border whose left side ends with `>`. -/
theorem no_cross_from_gt {P a b : Str} (hP : TagStr P) {i : Nat}
    (h : occursAt P (a ++ b) i) (ha : a.getD (a.length - 1) ' ' = '>') :
    (i + P.length ≤ a.length ∧ occursAt P a i) ∨
    (a.length ≤ i ∧ occursAt P b (i - a.length)) := by
  rcases occursAt_append_cases h with h1 | h2 | ⟨c2, p2, hpat, hc2, hp2, hocc, hlen, w2, hw2⟩
  · exact .inl h1
  · exact .inr h2
  · exfalso
    have hc2pos : 0 < c2.length := List.length_pos.mpr hc2
    have hp2pos : 0 < p2.length := List.length_pos.mpr hp2
    have e1 : a.getD (a.length - 1) ' ' = c2.getD (c2.length - 1) ' ' := by
      have e := occursAt_getD hocc (c2.length - 1) (by omega) ' '
      rw [← e]
      congr 1
      omega
    have e2 : P.getD (c2.length - 1) ' ' = c2.getD (c2.length - 1) ' ' := by
      rw [hpat, List.getD_append _ _ _ _ (by omega)]
    have hPlen : P.length = c2.length + p2.length := by
      rw [hpat, List.length_append]
    have := hP.2.2.1 (c2.length - 1) (by omega) (by rw [e2, ← e1, ha])
    omega

/-- Occurrences of a tag in `x ++ (topen ++ val ++ tclose) ++ y` lie fully
inside `x`, are the element's own opening or closing tag, or lie fully
inside `y`. -/
theorem occursAt_around_repl {P o2 c2 val2 x y : Str} (hP : TagStr P) (ho : TagStr o2)
    (hc : TagStr c2) (hval : '<' ∉ val2) {i : Nat}
    (h : occursAt P (x ++ (o2 ++ val2 ++ c2) ++ y) i) :
    (i + P.length ≤ x.length ∧ occursAt P x i) ∨
    (P = o2 ∧ i = x.length) ∨
    (P = c2 ∧ i = x.length + o2.length + val2.length) ∨
    (x.length + (o2.length + val2.length + c2.length) ≤ i ∧
      occursAt P y (i - (x.length + (o2.length + val2.length + c2.length)))) := by
  have hopos : 0 < o2.length := List.length_pos.mpr ho.1
  have hcpos : 0 < c2.length := List.length_pos.mpr hc.1
  have h2 : occursAt P (x ++ ((o2 ++ val2 ++ c2) ++ y)) i := by
    rw [← List.append_assoc]
    exact h
  have hrhead : ((o2 ++ val2 ++ c2) ++ y).getD 0 ' ' = '<' := by
    rw [List.getD_append _ _ _ _ (by simp; omega), List.append_assoc,
      List.getD_append _ _ _ _ (by omega)]
    exact ho.2.2.2.1
  rcases no_cross_into_lt hP h2 hrhead with ⟨hle, hx⟩ | ⟨hge, hry⟩
  · exact .inl ⟨hle, hx⟩
  · have hrlast : (o2 ++ val2 ++ c2).getD ((o2 ++ val2 ++ c2).length - 1) ' ' = '>' := by
      rw [List.getD_append_right _ _ _ _ (by simp; omega)]
      have : (o2 ++ val2 ++ c2).length - 1 - (o2 ++ val2).length = c2.length - 1 := by
        simp
        omega
      rw [this]
      exact hc.2.2.2.2
    rcases no_cross_from_gt hP hry hrlast with ⟨hle2, hr⟩ | ⟨hge2, hy⟩
    · rcases occursAt_in_repl hP ho hc hval hr with ⟨rfl, hj⟩ | ⟨rfl, hj⟩
      · refine .inr (.inl ⟨rfl, by omega⟩)
      · refine .inr (.inr (.inl ⟨rfl, by omega⟩))
    · refine .inr (.inr (.inr ⟨?_, ?_⟩))
      · simp only [List.length_append] at hge2
        omega
      · have harith : i - (x.length + (o2.length + val2.length + c2.length)) =
            i - x.length - (o2 ++ val2 ++ c2).length := by
          simp only [List.length_append]
          omega
        rw [harith]
        exact hy

/-! ## The one-segment replace pass: shapes and fixed points -/

theorem lineReplace_cases (o c r l : Str) :
    (lineReplace o c r l = l ∧ MatchFree o c l) ∨
    ∃ p k, firstOcc o l = some p ∧ lastOcc c l = some k ∧ p + o.length ≤ k ∧
      lineReplace o c r l = l.take p ++ r ++ l.drop (k + c.length) := by
  unfold lineReplace
  cases hf : firstOcc o l with
  | none =>
    refine .inl ⟨rfl, ?_⟩
    intro p k hp hk
    exact absurd hp ((firstOcc_spec o l).2 hf p)
  | some p =>
    cases hk : lastOcc c l with
    | none =>
      refine .inl ⟨rfl, ?_⟩
      intro p2 k2 hp2 hk2
      exact absurd hk2 ((lastOcc_spec c l).2 hk k2)
    | some k =>
      by_cases hcond : p + o.length ≤ k
      · refine .inr ⟨p, k, rfl, rfl, hcond, ?_⟩
        show (if p + o.length ≤ k then l.take p ++ r ++ l.drop (k + c.length) else l) = _
        rw [if_pos hcond]
      · refine .inl ⟨?_, ?_⟩
        · show (if p + o.length ≤ k then l.take p ++ r ++ l.drop (k + c.length) else l) = l
          rw [if_neg hcond]
        intro p2 k2 hp2 hk2
        have h1 := ((firstOcc_spec o l).1 p hf).2
        have h2 := ((lastOcc_spec c l).1 k hk).2
        have hp2ge : ¬ p2 < p := fun hh => h1 p2 hh hp2
        have hk2le := h2 k2 hk2
        omega

theorem lineReplace_of_matchfree {o c l : Str} (r : Str) (h : MatchFree o c l) :
    lineReplace o c r l = l := by
  rcases lineReplace_cases o c r l with ⟨heq, _⟩ | ⟨p, k, hp, hk, hcond, heq⟩
  · exact heq
  · exfalso
    have h1 := ((firstOcc_spec o l).1 p hp).1
    have h2 := ((lastOcc_spec c l).1 k hk).1
    have := h p k h1 h2
    omega

theorem noOcc_take_of_firstOcc {o l : Str} {p : Nat} (hopos : 0 < o.length)
    (hf : firstOcc o l = some p) : NoOcc o (l.take p) := by
  intro q hq
  have hlen := occursAt_length hq
  rw [List.length_take] at hlen
  have hocc := occursAt_of_take hq
  have hmin := ((firstOcc_spec o l).1 p hf).2
  exact hmin q (by omega) hocc

theorem noOcc_drop_of_lastOcc {c l : Str} {k : Nat} (hcpos : 0 < c.length)
    (hk : lastOcc c l = some k) : NoOcc c (l.drop (k + c.length)) := by
  intro q hq
  have hkocc := ((lastOcc_spec c l).1 k hk).1
  have hkmax := ((lastOcc_spec c l).1 k hk).2
  have hklen := occursAt_length hkocc
  have hocc := occursAt_of_drop (by omega) hq
  have := hkmax _ hocc
  omega

theorem segShape_fixed {o c val l : Str} (ho : TagStr o) (hc : TagStr c)
    (hoc : o ≠ c) (hval : '<' ∉ val) (hsh : SegShape o c val l) :
    LineFixed o c val l := by
  obtain ⟨a, b, rfl, hnoa, hnob⟩ := hsh
  have hopos : 0 < o.length := List.length_pos.mpr ho.1
  have hcpos : 0 < c.length := List.length_pos.mpr hc.1
  have hoccO : occursAt o (a ++ (o ++ val ++ c) ++ b) a.length :=
    ⟨a, val ++ c ++ b, by simp, rfl⟩
  have hfirst : firstOcc o (a ++ (o ++ val ++ c) ++ b) = some a.length := by
    refine firstOcc_eq_some_of _ _ _ hoccO ?_
    intro q hq hocc
    rcases occursAt_around_repl ho ho hc hval hocc with
      ⟨_, hx⟩ | ⟨_, hi⟩ | ⟨heq2, _⟩ | ⟨hge, _⟩
    · exact hnoa q hx
    · omega
    · exact hoc heq2
    · omega
  have hoccC : occursAt c (a ++ (o ++ val ++ c) ++ b)
      (a.length + o.length + val.length) :=
    ⟨a ++ o ++ val, b, by simp, by simp; omega⟩
  have hlast : lastOcc c (a ++ (o ++ val ++ c) ++ b)
      = some (a.length + o.length + val.length) := by
    refine lastOcc_eq_some_of _ _ _ hoccC ?_
    intro q hocc
    rcases occursAt_around_repl hc ho hc hval hocc with
      ⟨hle, _⟩ | ⟨heq2, _⟩ | ⟨_, hi⟩ | ⟨_, hy⟩
    · omega
    · exact (hoc heq2.symm).elim
    · omega
    · exact (hnob _ hy).elim
  have ht : (a ++ (o ++ val ++ c) ++ b).take a.length = a := by
    rw [List.append_assoc]
    have h0 : a.length = a.length + 0 := rfl
    rw [h0, List.take_append, List.take_zero, List.append_nil]
  have harith : a.length + o.length + val.length + c.length =
      (a ++ (o ++ val ++ c)).length + 0 := by
    simp
    omega
  have hd : (a ++ (o ++ val ++ c) ++ b).drop
      (a.length + o.length + val.length + c.length) = b := by
    rw [harith, List.drop_append, List.drop_zero]
  rcases lineReplace_cases o c (o ++ val ++ c) (a ++ (o ++ val ++ c) ++ b) with
    ⟨heq, _⟩ | ⟨p, k, hp, hk, hcond2, heq⟩
  · exact heq
  · have hpe : p = a.length := by
      rw [hfirst] at hp
      exact (Option.some_inj.mp hp).symm
    have hke : k = a.length + o.length + val.length := by
      rw [hlast] at hk
      exact (Option.some_inj.mp hk).symm
    subst hpe
    subst hke
    show lineReplace o c (o ++ val ++ c) (a ++ (o ++ val ++ c) ++ b) = _
    rw [heq, ht, hd]

theorem lineReplace_good {o c val : Str} (ho : TagStr o) (hc : TagStr c) (hoc : o ≠ c)
    (hval : '<' ∉ val) (l : Str) :
    LineFixed o c val (lineReplace o c (o ++ val ++ c) l) := by
  rcases lineReplace_cases o c (o ++ val ++ c) l with ⟨heq, hmf⟩ | ⟨p, k, hp, hk, hcond, heq⟩
  · rw [heq]
    exact lineReplace_of_matchfree _ hmf
  · rw [heq]
    refine segShape_fixed ho hc hoc hval
      ⟨l.take p, l.drop (k + c.length), rfl, ?_, ?_⟩
    · exact noOcc_take_of_firstOcc (List.length_pos.mpr ho.1) hp
    · exact noOcc_drop_of_lastOcc (List.length_pos.mpr hc.1) hk

theorem lineFixed_cases {o c val l : Str} (ho : TagStr o) (hc : TagStr c)
    (hfix : LineFixed o c val l) :
    MatchFree o c l ∨ SegShape o c val l := by
  rcases lineReplace_cases o c (o ++ val ++ c) l with ⟨_, hmf⟩ | ⟨p, k, hp, hk, hcond, heq⟩
  · exact .inl hmf
  · right
    have hl : l = l.take p ++ (o ++ val ++ c) ++ l.drop (k + c.length) :=
      (Eq.symm (hfix : lineReplace o c (o ++ val ++ c) l = l)).trans heq
    exact ⟨l.take p, l.drop (k + c.length), hl,
      noOcc_take_of_firstOcc (List.length_pos.mpr ho.1) hp,
      noOcc_drop_of_lastOcc (List.length_pos.mpr hc.1) hk⟩

/-- A fixed point of one tag's replace pass stays a fixed point after any
other tag's replace pass runs, provided both replacement values are
`<`-free and the four tag strings are pairwise distinct. -/
theorem lineFixed_preserve {o c val o2 c2 val2 : Str} (ho : TagStr o) (hc : TagStr c)
    (ho2 : TagStr o2) (hc2 : TagStr c2)
    (hoc : o ≠ c) (hoo2 : o ≠ o2) (hoc2 : o ≠ c2) (hco2 : c ≠ o2) (hcc2 : c ≠ c2)
    (hval : '<' ∉ val) (hval2 : '<' ∉ val2)
    (l : Str) (hfix : LineFixed o c val l) :
    LineFixed o c val (lineReplace o2 c2 (o2 ++ val2 ++ c2) l) := by
  have hopos : 0 < o.length := List.length_pos.mpr ho.1
  have hcpos : 0 < c.length := List.length_pos.mpr hc.1
  have ho2pos : 0 < o2.length := List.length_pos.mpr ho2.1
  have hc2pos : 0 < c2.length := List.length_pos.mpr hc2.1
  rcases lineReplace_cases o2 c2 (o2 ++ val2 ++ c2) l with
    ⟨heq, _⟩ | ⟨p, k, hp, hk, hcond, heq⟩
  · rw [heq]
    exact hfix
  · rw [heq]
    have hpOcc := ((firstOcc_spec o2 l).1 p hp).1
    have hkOcc := ((lastOcc_spec c2 l).1 k hk).1
    have hpLen := occursAt_length hpOcc
    have hkLen := occursAt_length hkOcc
    have hxl : (l.take p).length = p := by
      rw [List.length_take]
      omega
    rcases lineFixed_cases ho hc hfix with hmf | ⟨a, b, hl, hnoa, hnob⟩
    · refine lineReplace_of_matchfree _ ?_
      intro q k2 hq hk2
      rcases occursAt_around_repl ho ho2 hc2 hval2 hq with
        ⟨hleq, hxq⟩ | ⟨he, _⟩ | ⟨he, _⟩ | ⟨hgeq, hyq⟩
      · have hoccq : occursAt o l q := occursAt_of_take hxq
        rcases occursAt_around_repl hc ho2 hc2 hval2 hk2 with
          ⟨hlek, hxk⟩ | ⟨he, _⟩ | ⟨he, _⟩ | ⟨hgek, hyk⟩
        · exact hmf q k2 hoccq (occursAt_of_take hxk)
        · exact absurd he hco2
        · exact absurd he hcc2
        · exfalso
          have hocck := occursAt_of_drop (n := k + c2.length) (l := l) (by omega) hyk
          have hlt := hmf q _ hoccq hocck
          rw [hxl] at hleq hgek
          omega
      · exact absurd he hoo2
      · exact absurd he hoc2
      · have hoccq := occursAt_of_drop (n := k + c2.length) (l := l) (by omega) hyq
        rcases occursAt_around_repl hc ho2 hc2 hval2 hk2 with
          ⟨hlek, hxk⟩ | ⟨he, _⟩ | ⟨he, _⟩ | ⟨hgek, hyk⟩
        · rw [hxl] at hlek
          rw [hxl] at hgeq
          omega
        · exact absurd he hco2
        · exact absurd he hcc2
        · have hocck := occursAt_of_drop (n := k + c2.length) (l := l) (by omega) hyk
          have hlt := hmf _ _ hoccq hocck
          rw [hxl] at hgeq hgek
          omega
    · have hpOcc2 : occursAt o2 (a ++ (o ++ val ++ c) ++ b) p := by
        rw [← hl]
        exact hpOcc
      have hkOcc2 : occursAt c2 (a ++ (o ++ val ++ c) ++ b) k := by
        rw [← hl]
        exact hkOcc
      have hlLen : l.length = a.length + (o.length + val.length + c.length) + b.length := by
        rw [hl]
        simp
        omega
      rcases occursAt_around_repl ho2 ho hc hval hpOcc2 with
        ⟨hpa, hpocca⟩ | ⟨he, _⟩ | ⟨he, _⟩ | ⟨hpb, hpoccb⟩
      · rcases occursAt_around_repl hc2 ho hc hval hkOcc2 with
          ⟨hka, hkocca⟩ | ⟨he, _⟩ | ⟨he, _⟩ | ⟨hkb, hkoccb⟩
        · -- both ends of the replaced span lie in `a`
          have htake : l.take p = a.take p := by
            rw [hl, List.take_append_of_le_length (by simp; omega),
              List.take_append_of_le_length (by omega)]
          have hdrop : l.drop (k + c2.length) =
              (a.drop (k + c2.length) ++ (o ++ val ++ c)) ++ b := by
            rw [hl, List.drop_append_of_le_length (by simp; omega),
              List.drop_append_of_le_length (by omega)]
          rw [htake, hdrop]
          refine segShape_fixed ho hc hoc hval
            ⟨a.take p ++ (o2 ++ val2 ++ c2) ++ a.drop (k + c2.length), b, by simp, ?_,
             hnob⟩
          intro q hq
          rcases occursAt_around_repl ho ho2 hc2 hval2 hq with
            ⟨_, hxq⟩ | ⟨he, _⟩ | ⟨he, _⟩ | ⟨_, hyq⟩
          · exact hnoa q (occursAt_of_take hxq)
          · exact hoo2 he
          · exact hoc2 he
          · exact hnoa _ (occursAt_of_drop (by omega) hyq)
        · exact absurd he.symm hoc2
        · exact absurd he.symm hcc2
        · -- the span opens in `a` and closes in `b`
          have htake : l.take p = a.take p := by
            rw [hl, List.take_append_of_le_length (by simp; omega),
              List.take_append_of_le_length (by omega)]
          have hks : k + c2.length =
              (a ++ (o ++ val ++ c)).length +
                (k + c2.length - (a ++ (o ++ val ++ c)).length) := by
            simp
            omega
          have hdrop : l.drop (k + c2.length) =
              b.drop (k + c2.length - (a ++ (o ++ val ++ c)).length) := by
            rw [hl]
            conv_lhs => rw [hks]
            rw [List.drop_append]
          rw [htake, hdrop]
          refine lineReplace_of_matchfree _ ?_
          intro q k2 hq hk2
          have hql : (a.take p).length = p := by
            rw [List.length_take]
            omega
          rcases occursAt_around_repl ho ho2 hc2 hval2 hq with
            ⟨_, hxq⟩ | ⟨he, _⟩ | ⟨he, _⟩ | ⟨hgeq, hyq⟩
          · exact absurd hxq (fun hh => hnoa q (occursAt_of_take hh))
          · exact absurd he hoo2
          · exact absurd he hoc2
          · rcases occursAt_around_repl hc ho2 hc2 hval2 hk2 with
              ⟨hlek, hxk⟩ | ⟨he, _⟩ | ⟨he, _⟩ | ⟨_, hyk⟩
            · rw [hql] at hlek hgeq
              omega
            · exact absurd he hco2
            · exact absurd he hcc2
            · exfalso
              refine hnob _ (occursAt_of_drop (n := k + c2.length -
                (a ++ (o ++ val ++ c)).length) ?_ hyk)
              simp only [List.length_append]
              omega
      · exact absurd he.symm hoo2
      · exact absurd he.symm hco2
      · rcases occursAt_around_repl hc2 ho hc hval hkOcc2 with
          ⟨hka, hkocca⟩ | ⟨he, _⟩ | ⟨he, _⟩ | ⟨hkb, hkoccb⟩
        · -- the span would open in `b` and close in `a`: impossible
          exfalso
          omega
        · exact absurd he.symm hoc2
        · exact absurd he.symm hcc2
        · -- both ends of the replaced span lie in `b`
          have hps : p = (a ++ (o ++ val ++ c)).length +
              (p - (a ++ (o ++ val ++ c)).length) := by
            simp
            omega
          have htake : l.take p =
              (a ++ (o ++ val ++ c)) ++ b.take (p - (a ++ (o ++ val ++ c)).length) := by
            rw [hl]
            conv_lhs => rw [hps]
            rw [List.take_append]
          have hks : k + c2.length =
              (a ++ (o ++ val ++ c)).length +
                (k + c2.length - (a ++ (o ++ val ++ c)).length) := by
            simp
            omega
          have hdrop : l.drop (k + c2.length) =
              b.drop (k + c2.length - (a ++ (o ++ val ++ c)).length) := by
            rw [hl]
            conv_lhs => rw [hks]
            rw [List.drop_append]
          rw [htake, hdrop]
          refine segShape_fixed ho hc hoc hval
            ⟨a, b.take (p - (a ++ (o ++ val ++ c)).length) ++ (o2 ++ val2 ++ c2) ++
              b.drop (k + c2.length - (a ++ (o ++ val ++ c)).length), by simp, hnoa, ?_⟩
          intro q hq
          rcases occursAt_around_repl hc ho2 hc2 hval2 hq with
            ⟨_, hxq⟩ | ⟨he, _⟩ | ⟨he, _⟩ | ⟨_, hyq⟩
          · exact hnob q (occursAt_of_take hxq)
          · exact hco2 he
          · exact hcc2 he
          · refine hnob _ (occursAt_of_drop (n := k + c2.length -
              (a ++ (o ++ val ++ c)).length) ?_ hyq)
            simp only [List.length_append]
            omega

/-! ## Segment structure of whole-content replaces -/

theorem takeWhile_append_all (p : Char → Bool) (a b : Str) (h : ∀ ch ∈ a, p ch = true) :
    (a ++ b).takeWhile p = a ++ b.takeWhile p := by
  induction a with
  | nil => simp
  | cons x xs ih =>
    have hx : p x = true := h x (by simp)
    rw [List.cons_append, List.takeWhile_cons_of_pos hx, List.cons_append,
      ih (fun ch hch => h ch (by simp [hch]))]

theorem dropWhile_append_all (p : Char → Bool) (a b : Str) (h : ∀ ch ∈ a, p ch = true) :
    (a ++ b).dropWhile p = b.dropWhile p := by
  induction a with
  | nil => simp
  | cons x xs ih =>
    have hx : p x = true := h x (by simp)
    rw [List.cons_append, List.dropWhile_cons_of_pos hx,
      ih (fun ch hch => h ch (by simp [hch]))]

theorem mapSegments_noTerm (f : Str → Str) (s : Str)
    (h : ∀ ch ∈ s, isTerm ch = false) : mapSegments f s = f s := by
  have hdw : s.dropWhile (fun c => !isTerm c) = [] := by
    rw [List.dropWhile_eq_nil_iff]
    intro ch hch
    simp [h ch hch]
  have htw : s.takeWhile (fun c => !isTerm c) = s := by
    rw [List.takeWhile_eq_self_iff]
    intro ch hch
    simp [h ch hch]
  rw [mapSegments]
  split
  · rw [htw]
  next t rest heq =>
    rw [hdw] at heq
    cases heq

theorem mapSegments_append_term (f : Str → Str) (a : Str) (t : Char) (b : Str)
    (ha : ∀ ch ∈ a, isTerm ch = false) (ht : isTerm t = true) :
    mapSegments f (a ++ t :: b) = f a ++ t :: mapSegments f b := by
  have hdw : (a ++ t :: b).dropWhile (fun c => !isTerm c) = t :: b := by
    rw [dropWhile_append_all _ _ _ (fun ch hch => by simp [ha ch hch])]
    rw [List.dropWhile_cons_of_neg (by simp [ht])]
  have htw : (a ++ t :: b).takeWhile (fun c => !isTerm c) = a := by
    rw [takeWhile_append_all _ _ _ (fun ch hch => by simp [ha ch hch])]
    rw [List.takeWhile_cons_of_neg (by simp [ht])]
    simp
  rw [mapSegments]
  split
  next heq =>
    rw [hdw] at heq
    cases heq
  next t2 rest2 heq =>
    rw [hdw] at heq
    obtain ⟨rfl, rfl⟩ := List.cons.inj heq
    rw [htw]

/-- Either the content is one terminator-free segment, or it splits at its
first terminator. -/
theorem seg_decomp (s : Str) : (∀ ch ∈ s, isTerm ch = false) ∨
    ∃ a t rest, s = a ++ t :: rest ∧ (∀ ch ∈ a, isTerm ch = false) ∧ isTerm t = true := by
  induction s with
  | nil =>
    left
    simp
  | cons ch cs ih =>
    by_cases hc : isTerm ch = true
    · right
      exact ⟨[], ch, cs, rfl, by simp, hc⟩
    · rcases ih with hfree | ⟨a, t, rest, rfl, ha, ht⟩
      · left
        intro d hd
        rcases List.mem_cons.mp hd with rfl | hd2
        · simpa using hc
        · exact hfree d hd2
      · right
        refine ⟨ch :: a, t, rest, rfl, ?_, ht⟩
        intro d hd
        rcases List.mem_cons.mp hd with rfl | hd2
        · simpa using hc
        · exact ha d hd2

theorem mapSegments_comp (f g : Str → Str)
    (hf : ∀ line, (∀ ch ∈ line, isTerm ch = false) → ∀ ch ∈ f line, isTerm ch = false) :
    ∀ s : Str, mapSegments g (mapSegments f s) = mapSegments (fun line => g (f line)) s := by
  have main : ∀ n (s : Str), s.length ≤ n →
      mapSegments g (mapSegments f s) = mapSegments (fun line => g (f line)) s := by
    intro n
    induction n with
    | zero =>
      intro s hs
      have : s = [] := by
        cases s with
        | nil => rfl
        | cons a b => simp at hs
      subst this
      rw [mapSegments_noTerm f [] (by simp), mapSegments_noTerm g (f [])
        (hf [] (by simp)), mapSegments_noTerm _ [] (by simp)]
    | succ n ih =>
      intro s hs
      rcases seg_decomp s with hfree | ⟨a, t, rest, rfl, ha, ht⟩
      · rw [mapSegments_noTerm f s hfree, mapSegments_noTerm g (f s) (hf s hfree),
          mapSegments_noTerm _ s hfree]
      · rw [mapSegments_append_term f a t rest ha ht,
          mapSegments_append_term g (f a) t (mapSegments f rest) (hf a ha) ht,
          mapSegments_append_term _ a t rest ha ht]
        have hrest : rest.length ≤ n := by
          have := hs
          simp only [List.length_append, List.length_cons] at this
          omega
        rw [ih rest hrest]
  intro s
  exact main s.length s (le_refl _)

theorem mapSegments_congr (f g : Str → Str)
    (h : ∀ line, (∀ ch ∈ line, isTerm ch = false) → f line = g line) :
    ∀ s : Str, mapSegments f s = mapSegments g s := by
  have main : ∀ n (s : Str), s.length ≤ n → mapSegments f s = mapSegments g s := by
    intro n
    induction n with
    | zero =>
      intro s hs
      have : s = [] := by
        cases s with
        | nil => rfl
        | cons a b => simp at hs
      subst this
      rw [mapSegments_noTerm f [] (by simp), mapSegments_noTerm g [] (by simp),
        h [] (by simp)]
    | succ n ih =>
      intro s hs
      rcases seg_decomp s with hfree | ⟨a, t, rest, rfl, ha, ht⟩
      · rw [mapSegments_noTerm f s hfree, mapSegments_noTerm g s hfree, h s hfree]
      · rw [mapSegments_append_term f a t rest ha ht,
          mapSegments_append_term g a t rest ha ht, h a ha]
        have hrest : rest.length ≤ n := by
          have := hs
          simp only [List.length_append, List.length_cons] at this
          omega
        rw [ih rest hrest]
  intro s
  exact main s.length s (le_refl _)

theorem lineReplace_noTerm {o c r line : Str} (hr : ∀ ch ∈ r, isTerm ch = false)
    (hline : ∀ ch ∈ line, isTerm ch = false) :
    ∀ ch ∈ lineReplace o c r line, isTerm ch = false := by
  rcases lineReplace_cases o c r line with ⟨heq, _⟩ | ⟨p, k, _, _, _, heq⟩
  · rw [heq]
    exact hline
  · rw [heq]
    intro ch hch
    rcases List.mem_append.mp hch with hch2 | hch2
    · rcases List.mem_append.mp hch2 with hch3 | hch3
      · exact hline ch (List.take_subset _ _ hch3)
      · exact hr ch hch3
    · exact hline ch (List.drop_subset _ _ hch2)

theorem lineReplace_of_noOpen {o l : Str} (c r : Str) (h : NoOcc o l) :
    lineReplace o c r l = l := by
  rcases lineReplace_cases o c r l with ⟨heq, _⟩ | ⟨p, k, hp, _, _, _⟩
  · exact heq
  · exact absurd ((firstOcc_spec o l).1 p hp).1 (h p)

/-! ## Pipelines of replace passes -/

theorem linePipeline_nil (l : Str) : linePipeline [] l = l := rfl

theorem linePipeline_cons (t0 : Str × Str × Str) (rest : List (Str × Str × Str)) (l : Str) :
    linePipeline (t0 :: rest) l =
      linePipeline rest (lineReplace t0.1 t0.2.1 (t0.1 ++ t0.2.2 ++ t0.2.1) l) := rfl

theorem linePipeline_append (ts1 ts2 : List (Str × Str × Str)) (l : Str) :
    linePipeline (ts1 ++ ts2) l = linePipeline ts2 (linePipeline ts1 l) :=
  List.foldl_append _ _ _ _

/-- A fixed point of one pass stays a fixed point through a whole pipeline
of passes with distinct tags. -/
theorem linePipeline_preserve {o c val : Str} (ho : TagStr o) (hc : TagStr c)
    (hoc : o ≠ c) (hval : '<' ∉ val) (ts : List (Str × Str × Str))
    (hgood : ∀ t ∈ ts, TagStr t.1 ∧ TagStr t.2.1 ∧ '<' ∉ t.2.2)
    (hdist : ∀ t ∈ ts, o ≠ t.1 ∧ o ≠ t.2.1 ∧ c ≠ t.1 ∧ c ≠ t.2.1) :
    ∀ m : Str, LineFixed o c val m → LineFixed o c val (linePipeline ts m) := by
  induction ts with
  | nil =>
    intro m hfix
    exact hfix
  | cons t0 rest ih =>
    intro m hfix
    rw [linePipeline_cons]
    refine ih (fun t ht => hgood t (by simp [ht])) (fun t ht => hdist t (by simp [ht])) _ ?_
    obtain ⟨hg1, hg2, hg3⟩ := hgood t0 (by simp)
    obtain ⟨hd1, hd2, hd3, hd4⟩ := hdist t0 (by simp)
    exact lineFixed_preserve ho hc hg1 hg2 hoc hd1 hd2 hd3 hd4 hval hg3 m hfix

/-- After a pipeline runs, every pass of the pipeline is at a fixed point. -/
theorem linePipeline_fixed (ts : List (Str × Str × Str))
    (hgood : ∀ t ∈ ts, TagStr t.1 ∧ TagStr t.2.1 ∧ t.1 ≠ t.2.1 ∧ '<' ∉ t.2.2)
    (hdist : List.Pairwise
      (fun q q2 => q.1 ≠ q2.1 ∧ q.1 ≠ q2.2 ∧ q.2 ≠ q2.1 ∧ q.2 ≠ q2.2)
      (ts.map (fun t => (t.1, t.2.1)))) :
    ∀ (l : Str), ∀ t ∈ ts, LineFixed t.1 t.2.1 t.2.2 (linePipeline ts l) := by
  induction ts with
  | nil => simp
  | cons t0 rest ih =>
    intro l t ht
    rw [linePipeline_cons]
    rw [List.map_cons, List.pairwise_cons] at hdist
    rcases List.mem_cons.mp ht with rfl | hmem
    · obtain ⟨hg1, hg2, hg3, hg4⟩ := hgood t (by simp)
      refine linePipeline_preserve hg1 hg2 hg3 hg4 rest
        (fun t2 ht2 => by
          obtain ⟨a1, a2, _, a4⟩ := hgood t2 (by simp [ht2])
          exact ⟨a1, a2, a4⟩)
        (fun t2 ht2 => by
          have := hdist.1 (t2.1, t2.2.1) (List.mem_map_of_mem _ ht2)
          exact this)
        _ (lineReplace_good hg1 hg2 hg3 hg4 l)
    · exact ih (fun t2 ht2 => hgood t2 (by simp [ht2])) hdist.2 _ t hmem

/-- A string at which every pass is fixed is fixed by the pipeline. -/
theorem linePipeline_of_fixed (ts : List (Str × Str × Str)) (m : Str)
    (hfix : ∀ t ∈ ts, LineFixed t.1 t.2.1 t.2.2 m) : linePipeline ts m = m := by
  induction ts with
  | nil => rfl
  | cons t0 rest ih =>
    rw [linePipeline_cons]
    have h0 : lineReplace t0.1 t0.2.1 (t0.1 ++ t0.2.2 ++ t0.2.1) m = m :=
      hfix t0 (by simp)
    rw [h0]
    exact ih (fun t ht => hfix t (by simp [ht]))

/-- The pipeline of replace passes is idempotent on every segment when the
tags are pairwise distinct and the values are `<`-free. -/
theorem linePipeline_idem (ts : List (Str × Str × Str))
    (hgood : ∀ t ∈ ts, TagStr t.1 ∧ TagStr t.2.1 ∧ t.1 ≠ t.2.1 ∧ '<' ∉ t.2.2)
    (hdist : List.Pairwise
      (fun q q2 => q.1 ≠ q2.1 ∧ q.1 ≠ q2.2 ∧ q.2 ≠ q2.1 ∧ q.2 ≠ q2.2)
      (ts.map (fun t => (t.1, t.2.1)))) (l : Str) :
    linePipeline ts (linePipeline ts l) = linePipeline ts l :=
  linePipeline_of_fixed ts _ (fun t ht => linePipeline_fixed ts hgood hdist l t ht)

theorem linePipeline_noTerm (ts : List (Str × Str × Str))
    (hterm : ∀ t ∈ ts, ∀ ch ∈ t.1 ++ t.2.2 ++ t.2.1, isTerm ch = false) :
    ∀ line : Str, (∀ ch ∈ line, isTerm ch = false) →
      ∀ ch ∈ linePipeline ts line, isTerm ch = false := by
  induction ts with
  | nil =>
    intro line hline
    exact hline
  | cons t0 rest ih =>
    intro line hline
    rw [linePipeline_cons]
    exact ih (fun t ht => hterm t (by simp [ht])) _
      (lineReplace_noTerm (hterm t0 (by simp)) hline)

/-- Adding a whole-content replace pass on top of a pipeline of passes
extends the pipeline. -/
theorem tagReplace_mapSegments_snoc (o c val : Str) (ts : List (Str × Str × Str))
    (s : Str)
    (hterm : ∀ t ∈ ts, ∀ ch ∈ t.1 ++ t.2.2 ++ t.2.1, isTerm ch = false) :
    tagReplace o c val (mapSegments (linePipeline ts) s) =
      mapSegments (linePipeline (ts ++ [(o, c, val)])) s := by
  show mapSegments (lineReplace o c (o ++ val ++ c)) (mapSegments (linePipeline ts) s) = _
  rw [mapSegments_comp _ _ (linePipeline_noTerm ts hterm)]
  refine mapSegments_congr _ _ ?_ s
  intro line _
  rw [linePipeline_append]
  rfl

/-! ## Facts about the concrete tags and about characters -/

theorem tag_vOpen : TagStr vOpen := by
  unfold TagStr vOpen
  decide

theorem tag_vClose : TagStr vClose := by
  unfold TagStr vClose
  decide

theorem tag_maOpen : TagStr maOpen := by
  unfold TagStr maOpen
  decide

theorem tag_maClose : TagStr maClose := by
  unfold TagStr maClose
  decide

theorem tag_miOpen : TagStr miOpen := by
  unfold TagStr miOpen
  decide

theorem tag_miClose : TagStr miClose := by
  unfold TagStr miClose
  decide

theorem tag_paOpen : TagStr paOpen := by
  unfold TagStr paOpen
  decide

theorem tag_paClose : TagStr paClose := by
  unfold TagStr paClose
  decide

theorem tag_suOpen : TagStr suOpen := by
  unfold TagStr suOpen
  decide

theorem tag_suClose : TagStr suClose := by
  unfold TagStr suClose
  decide

theorem isTerm_false_of_digit (ch : Char) (h : ch.isDigit = true) : isTerm ch = false := by
  by_contra hne
  rw [Bool.not_eq_false, isTerm] at hne
  simp only [Bool.or_eq_true, beq_iff_eq] at hne
  rcases hne with ((rfl | rfl) | rfl) | rfl <;> exact absurd h (by decide)

theorem not_lt_of_digits {s : Str} (h : ∀ ch ∈ s, ch.isDigit = true) : '<' ∉ s :=
  fun hm => absurd (h _ hm) (by decide)

theorem noTerm_of_digits {s : Str} (h : ∀ ch ∈ s, ch.isDigit = true) :
    ∀ ch ∈ s, isTerm ch = false :=
  fun ch hm => isTerm_false_of_digit ch (h ch hm)

theorem flat_term3 {o c val : Str} (ho : ∀ ch ∈ o, isTerm ch = false)
    (hc : ∀ ch ∈ c, isTerm ch = false) (hv : ∀ ch ∈ val, isTerm ch = false) :
    ∀ ch ∈ o ++ val ++ c, isTerm ch = false := by
  intro ch hch
  rcases List.mem_append.mp hch with hch2 | hch2
  · rcases List.mem_append.mp hch2 with hch3 | hch3
    · exact ho ch hch3
    · exact hv ch hch3
  · exact hc ch hch2

/-- All characters of a successfully parsed version string are
terminator-free, and so are the characters of its prerelease group. -/
theorem version_noTerm {v : Str} {pv : ParsedVersion} (h : parseVersion v = some pv) :
    ∀ ch ∈ v, isTerm ch = false := by
  obtain ⟨hv, _, _, _, hdma, hdmi, hdpa, hprop⟩ := parseVersion_spec v pv h
  intro ch hch
  rw [hv] at hch
  simp only [List.mem_append, List.mem_cons] at hch
  rcases hch with ((hma | rfl | hmi) | rfl | hpa) | htail
  · exact isTerm_false_of_digit ch (hdma ch hma)
  · decide
  · exact isTerm_false_of_digit ch (hdmi ch hmi)
  · decide
  · exact isTerm_false_of_digit ch (hdpa ch hpa)
  · cases hp : pv.pre with
    | none =>
      rw [hp] at htail
      simp at htail
    | some pre =>
      rw [hp] at htail
      simp only [List.mem_cons] at htail
      rcases htail with rfl | hpre
      · decide
      · exact (hprop pre hp).2 ch hpre

/-- The prerelease group of a `<`-free version string is `<`-free. -/
theorem pre_not_lt {v : Str} {pv : ParsedVersion} {pre : Str}
    (h : parseVersion v = some pv) (hp : pv.pre = some pre) (hlt : '<' ∉ v) :
    '<' ∉ pre := by
  obtain ⟨hv, _, _, _, _, _, _, _⟩ := parseVersion_spec v pv h
  intro hm
  refine hlt ?_
  rw [hv, hp]
  simp [hm]

/-! ## Idempotence of the whole replace sequence -/

theorem term_triple (o c val : Str) (ho : ∀ ch ∈ o, isTerm ch = false)
    (hc : ∀ ch ∈ c, isTerm ch = false) (hv : ∀ ch ∈ val, isTerm ch = false) :
    ∀ ch ∈ (o, c, val).1 ++ (o, c, val).2.2 ++ (o, c, val).2.1, isTerm ch = false :=
  flat_term3 ho hc hv

theorem good_triple (o c val : Str) (ho : TagStr o) (hc : TagStr c) (hoc : o ≠ c)
    (hval : '<' ∉ val) :
    TagStr (o, c, val).1 ∧ TagStr (o, c, val).2.1 ∧ (o, c, val).1 ≠ (o, c, val).2.1 ∧
      '<' ∉ (o, c, val).2.2 :=
  ⟨ho, hc, hoc, hval⟩

/-- `updatedContent` is one `mapSegments` of the pipeline of its passes. -/
theorem updatedContent_pipeline (pv : ParsedVersion) (version content : Str)
    (hvterm : ∀ ch ∈ version, isTerm ch = false)
    (hmaterm : ∀ ch ∈ pv.major, isTerm ch = false)
    (hmiterm : ∀ ch ∈ pv.minor, isTerm ch = false)
    (hpaterm : ∀ ch ∈ pv.patch, isTerm ch = false)
    (hpreterm : ∀ pre, pv.pre = some pre → ∀ ch ∈ pre, isTerm ch = false) :
    updatedContent pv version content =
      mapSegments (linePipeline
        ([(vOpen, vClose, version), (maOpen, maClose, pv.major),
          (miOpen, miClose, pv.minor), (paOpen, paClose, pv.patch)] ++
         (match pv.pre with
          | none => []
          | some pre => [(suOpen, suClose, pre)]))) content := by
  have hterm1 : ∀ t ∈ ([(vOpen, vClose, version)] : List (Str × Str × Str)),
      ∀ ch ∈ t.1 ++ t.2.2 ++ t.2.1, isTerm ch = false := by
    intro t ht
    simp only [List.mem_cons, List.not_mem_nil, or_false] at ht
    subst ht
    exact term_triple _ _ _ (by decide) (by decide) hvterm
  have hterm2 : ∀ t ∈ ([(vOpen, vClose, version), (maOpen, maClose, pv.major)] :
      List (Str × Str × Str)), ∀ ch ∈ t.1 ++ t.2.2 ++ t.2.1, isTerm ch = false := by
    intro t ht
    simp only [List.mem_cons, List.not_mem_nil, or_false] at ht
    rcases ht with rfl | rfl
    · exact term_triple _ _ _ (by decide) (by decide) hvterm
    · exact term_triple _ _ _ (by decide) (by decide) hmaterm
  have hterm3 : ∀ t ∈ ([(vOpen, vClose, version), (maOpen, maClose, pv.major),
      (miOpen, miClose, pv.minor)] : List (Str × Str × Str)),
      ∀ ch ∈ t.1 ++ t.2.2 ++ t.2.1, isTerm ch = false := by
    intro t ht
    simp only [List.mem_cons, List.not_mem_nil, or_false] at ht
    rcases ht with rfl | rfl | rfl
    · exact term_triple _ _ _ (by decide) (by decide) hvterm
    · exact term_triple _ _ _ (by decide) (by decide) hmaterm
    · exact term_triple _ _ _ (by decide) (by decide) hmiterm
  have hterm4 : ∀ t ∈ ([(vOpen, vClose, version), (maOpen, maClose, pv.major),
      (miOpen, miClose, pv.minor), (paOpen, paClose, pv.patch)] :
      List (Str × Str × Str)), ∀ ch ∈ t.1 ++ t.2.2 ++ t.2.1, isTerm ch = false := by
    intro t ht
    simp only [List.mem_cons, List.not_mem_nil, or_false] at ht
    rcases ht with rfl | rfl | rfl | rfl
    · exact term_triple _ _ _ (by decide) (by decide) hvterm
    · exact term_triple _ _ _ (by decide) (by decide) hmaterm
    · exact term_triple _ _ _ (by decide) (by decide) hmiterm
    · exact term_triple _ _ _ (by decide) (by decide) hpaterm
  cases hp : pv.pre with
  | none =>
    simp only [updatedContent, hp]
    have hbase : tagReplace vOpen vClose version content =
        mapSegments (linePipeline [(vOpen, vClose, version)]) content := rfl
    rw [hbase, tagReplace_mapSegments_snoc _ _ _ _ _ hterm1]
    simp only [List.cons_append, List.nil_append]
    rw [tagReplace_mapSegments_snoc _ _ _ _ _ hterm2]
    simp only [List.cons_append, List.nil_append]
    rw [tagReplace_mapSegments_snoc _ _ _ _ _ hterm3]
    simp only [List.cons_append, List.nil_append, List.append_nil]
  | some pre =>
    simp only [updatedContent, hp]
    have hbase : tagReplace vOpen vClose version content =
        mapSegments (linePipeline [(vOpen, vClose, version)]) content := rfl
    rw [hbase, tagReplace_mapSegments_snoc _ _ _ _ _ hterm1]
    simp only [List.cons_append, List.nil_append]
    rw [tagReplace_mapSegments_snoc _ _ _ _ _ hterm2]
    simp only [List.cons_append, List.nil_append]
    rw [tagReplace_mapSegments_snoc _ _ _ _ _ hterm3]
    simp only [List.cons_append, List.nil_append]
    rw [tagReplace_mapSegments_snoc _ _ _ _ _ hterm4]
    simp only [List.cons_append, List.nil_append, List.append_nil]

/-- Idempotence of the replace sequence of `updateProjectFile`, for a
version matching the pattern and containing no `<`. -/
theorem updatedContent_idem (pv : ParsedVersion) (version content : Str)
    (hparse : parseVersion version = some pv) (hlt : '<' ∉ version) :
    updatedContent pv version (updatedContent pv version content) =
      updatedContent pv version content := by
  obtain ⟨hv, _, _, _, hdma, hdmi, hdpa, hprop⟩ := parseVersion_spec version pv hparse
  have hvterm := version_noTerm hparse
  have hmaterm := noTerm_of_digits hdma
  have hmiterm := noTerm_of_digits hdmi
  have hpaterm := noTerm_of_digits hdpa
  have hpreterm : ∀ pre, pv.pre = some pre → ∀ ch ∈ pre, isTerm ch = false := by
    intro pre hp ch hch
    refine hvterm ch ?_
    rw [hv, hp]
    simp [hch]
  have hmalt := not_lt_of_digits hdma
  have hmilt := not_lt_of_digits hdmi
  have hpalt := not_lt_of_digits hdpa
  cases hp : pv.pre with
  | none =>
    have hpipe1 := updatedContent_pipeline pv version content hvterm hmaterm hmiterm
      hpaterm hpreterm
    have hpipe2 := updatedContent_pipeline pv version
      (updatedContent pv version content) hvterm hmaterm hmiterm hpaterm hpreterm
    rw [hp] at hpipe1 hpipe2
    have hgood : ∀ t ∈ ([(vOpen, vClose, version), (maOpen, maClose, pv.major),
        (miOpen, miClose, pv.minor), (paOpen, paClose, pv.patch)] ++ [] :
        List (Str × Str × Str)),
        TagStr t.1 ∧ TagStr t.2.1 ∧ t.1 ≠ t.2.1 ∧ '<' ∉ t.2.2 := by
      intro t ht
      simp only [List.append_nil, List.mem_cons, List.not_mem_nil, or_false] at ht
      rcases ht with rfl | rfl | rfl | rfl
      · exact good_triple _ _ _ tag_vOpen tag_vClose (by decide) hlt
      · exact good_triple _ _ _ tag_maOpen tag_maClose (by decide) hmalt
      · exact good_triple _ _ _ tag_miOpen tag_miClose (by decide) hmilt
      · exact good_triple _ _ _ tag_paOpen tag_paClose (by decide) hpalt
    have hdist : List.Pairwise
        (fun q q2 => q.1 ≠ q2.1 ∧ q.1 ≠ q2.2 ∧ q.2 ≠ q2.1 ∧ q.2 ≠ q2.2)
        ((([(vOpen, vClose, version), (maOpen, maClose, pv.major),
          (miOpen, miClose, pv.minor), (paOpen, paClose, pv.patch)] ++ [] :
          List (Str × Str × Str))).map (fun t => (t.1, t.2.1))) := by
      simp only [List.append_nil, List.map_cons, List.map_nil]
      unfold vOpen vClose maOpen maClose miOpen miClose paOpen paClose
      decide
    have hterm : ∀ t ∈ ([(vOpen, vClose, version), (maOpen, maClose, pv.major),
        (miOpen, miClose, pv.minor), (paOpen, paClose, pv.patch)] ++ [] :
        List (Str × Str × Str)), ∀ ch ∈ t.1 ++ t.2.2 ++ t.2.1, isTerm ch = false := by
      intro t ht
      simp only [List.append_nil, List.mem_cons, List.not_mem_nil, or_false] at ht
      rcases ht with rfl | rfl | rfl | rfl
      · exact term_triple _ _ _ (by decide) (by decide) hvterm
      · exact term_triple _ _ _ (by decide) (by decide) hmaterm
      · exact term_triple _ _ _ (by decide) (by decide) hmiterm
      · exact term_triple _ _ _ (by decide) (by decide) hpaterm
    rw [hpipe2, hpipe1]
    rw [mapSegments_comp _ _ (linePipeline_noTerm _ hterm)]
    exact mapSegments_congr _ _
      (fun line _ => linePipeline_idem _ hgood hdist line) content
  | some pre =>
    have hpipe1 := updatedContent_pipeline pv version content hvterm hmaterm hmiterm
      hpaterm hpreterm
    have hpipe2 := updatedContent_pipeline pv version
      (updatedContent pv version content) hvterm hmaterm hmiterm hpaterm hpreterm
    rw [hp] at hpipe1 hpipe2
    have hprelt : '<' ∉ pre := pre_not_lt hparse hp hlt
    have hpreterm2 : ∀ ch ∈ pre, isTerm ch = false := hpreterm pre hp
    have hgood : ∀ t ∈ ([(vOpen, vClose, version), (maOpen, maClose, pv.major),
        (miOpen, miClose, pv.minor), (paOpen, paClose, pv.patch)] ++
        [(suOpen, suClose, pre)] : List (Str × Str × Str)),
        TagStr t.1 ∧ TagStr t.2.1 ∧ t.1 ≠ t.2.1 ∧ '<' ∉ t.2.2 := by
      intro t ht
      simp only [List.mem_append, List.mem_cons, List.not_mem_nil, or_false] at ht
      rcases ht with (rfl | rfl | rfl | rfl) | rfl
      · exact good_triple _ _ _ tag_vOpen tag_vClose (by decide) hlt
      · exact good_triple _ _ _ tag_maOpen tag_maClose (by decide) hmalt
      · exact good_triple _ _ _ tag_miOpen tag_miClose (by decide) hmilt
      · exact good_triple _ _ _ tag_paOpen tag_paClose (by decide) hpalt
      · exact good_triple _ _ _ tag_suOpen tag_suClose (by decide) hprelt
    have hdist : List.Pairwise
        (fun q q2 => q.1 ≠ q2.1 ∧ q.1 ≠ q2.2 ∧ q.2 ≠ q2.1 ∧ q.2 ≠ q2.2)
        ((([(vOpen, vClose, version), (maOpen, maClose, pv.major),
          (miOpen, miClose, pv.minor), (paOpen, paClose, pv.patch)] ++
          [(suOpen, suClose, pre)] : List (Str × Str × Str))).map
          (fun t => (t.1, t.2.1))) := by
      simp only [List.map_append, List.map_cons, List.map_nil]
      unfold vOpen vClose maOpen maClose miOpen miClose paOpen paClose suOpen suClose
      decide
    have hterm : ∀ t ∈ ([(vOpen, vClose, version), (maOpen, maClose, pv.major),
        (miOpen, miClose, pv.minor), (paOpen, paClose, pv.patch)] ++
        [(suOpen, suClose, pre)] : List (Str × Str × Str)),
        ∀ ch ∈ t.1 ++ t.2.2 ++ t.2.1, isTerm ch = false := by
      intro t ht
      simp only [List.mem_append, List.mem_cons, List.not_mem_nil, or_false] at ht
      rcases ht with (rfl | rfl | rfl | rfl) | rfl
      · exact term_triple _ _ _ (by decide) (by decide) hvterm
      · exact term_triple _ _ _ (by decide) (by decide) hmaterm
      · exact term_triple _ _ _ (by decide) (by decide) hmiterm
      · exact term_triple _ _ _ (by decide) (by decide) hpaterm
      · exact term_triple _ _ _ (by decide) (by decide) hpreterm2
    rw [hpipe2, hpipe1]
    rw [mapSegments_comp _ _ (linePipeline_noTerm _ hterm)]
    exact mapSegments_congr _ _
      (fun line _ => linePipeline_idem _ hgood hdist line) content

/-! ## Claim C2: idempotence of the manifest mutation -/

/-- On terminator-free content (and values), `updatedContent` with a
prerelease is the plain five-pass `lineReplace` chain. -/
theorem updatedContent_noTerm_pre (pv : ParsedVersion) (version content pre2 : Str)
    (hp : pv.pre = some pre2)
    (hc : ∀ ch ∈ content, isTerm ch = false)
    (hv : ∀ ch ∈ version, isTerm ch = false)
    (hma : ∀ ch ∈ pv.major, isTerm ch = false)
    (hmi : ∀ ch ∈ pv.minor, isTerm ch = false)
    (hpa : ∀ ch ∈ pv.patch, isTerm ch = false) :
    updatedContent pv version content =
      lineReplace suOpen suClose (suOpen ++ pre2 ++ suClose)
        (lineReplace paOpen paClose (paOpen ++ pv.patch ++ paClose)
          (lineReplace miOpen miClose (miOpen ++ pv.minor ++ miClose)
            (lineReplace maOpen maClose (maOpen ++ pv.major ++ maClose)
              (lineReplace vOpen vClose (vOpen ++ version ++ vClose) content)))) := by
  have h1 : ∀ ch ∈ lineReplace vOpen vClose (vOpen ++ version ++ vClose) content,
      isTerm ch = false :=
    lineReplace_noTerm (flat_term3 (by decide) (by decide) hv) hc
  have h2 : ∀ ch ∈ lineReplace maOpen maClose (maOpen ++ pv.major ++ maClose)
      (lineReplace vOpen vClose (vOpen ++ version ++ vClose) content),
      isTerm ch = false :=
    lineReplace_noTerm (flat_term3 (by decide) (by decide) hma) h1
  have h3 : ∀ ch ∈ lineReplace miOpen miClose (miOpen ++ pv.minor ++ miClose)
      (lineReplace maOpen maClose (maOpen ++ pv.major ++ maClose)
        (lineReplace vOpen vClose (vOpen ++ version ++ vClose) content)),
      isTerm ch = false :=
    lineReplace_noTerm (flat_term3 (by decide) (by decide) hmi) h2
  have h4 : ∀ ch ∈ lineReplace paOpen paClose (paOpen ++ pv.patch ++ paClose)
      (lineReplace miOpen miClose (miOpen ++ pv.minor ++ miClose)
        (lineReplace maOpen maClose (maOpen ++ pv.major ++ maClose)
          (lineReplace vOpen vClose (vOpen ++ version ++ vClose) content))),
      isTerm ch = false :=
    lineReplace_noTerm (flat_term3 (by decide) (by decide) hpa) h3
  simp only [updatedContent, tagReplace, hp]
  rw [mapSegments_noTerm _ content hc, mapSegments_noTerm _ _ h1,
    mapSegments_noTerm _ _ h2, mapSegments_noTerm _ _ h3, mapSegments_noTerm _ _ h4]

/-- On terminator-free content (and values), `updatedContent` without a
prerelease is the plain four-pass `lineReplace` chain. -/
theorem updatedContent_noTerm_rel (pv : ParsedVersion) (version content : Str)
    (hp : pv.pre = none)
    (hc : ∀ ch ∈ content, isTerm ch = false)
    (hv : ∀ ch ∈ version, isTerm ch = false)
    (hma : ∀ ch ∈ pv.major, isTerm ch = false)
    (hmi : ∀ ch ∈ pv.minor, isTerm ch = false)
    (hpa : ∀ ch ∈ pv.patch, isTerm ch = false) :
    updatedContent pv version content =
      lineReplace paOpen paClose (paOpen ++ pv.patch ++ paClose)
        (lineReplace miOpen miClose (miOpen ++ pv.minor ++ miClose)
          (lineReplace maOpen maClose (maOpen ++ pv.major ++ maClose)
            (lineReplace vOpen vClose (vOpen ++ version ++ vClose) content))) := by
  have h1 : ∀ ch ∈ lineReplace vOpen vClose (vOpen ++ version ++ vClose) content,
      isTerm ch = false :=
    lineReplace_noTerm (flat_term3 (by decide) (by decide) hv) hc
  have h2 : ∀ ch ∈ lineReplace maOpen maClose (maOpen ++ pv.major ++ maClose)
      (lineReplace vOpen vClose (vOpen ++ version ++ vClose) content),
      isTerm ch = false :=
    lineReplace_noTerm (flat_term3 (by decide) (by decide) hma) h1
  have h3 : ∀ ch ∈ lineReplace miOpen miClose (miOpen ++ pv.minor ++ miClose)
      (lineReplace maOpen maClose (maOpen ++ pv.major ++ maClose)
        (lineReplace vOpen vClose (vOpen ++ version ++ vClose) content)),
      isTerm ch = false :=
    lineReplace_noTerm (flat_term3 (by decide) (by decide) hmi) h2
  simp only [updatedContent, tagReplace, hp]
  rw [mapSegments_noTerm _ content hc, mapSegments_noTerm _ _ h1,
    mapSegments_noTerm _ _ h2, mapSegments_noTerm _ _ h3]

/-- C2 fails on the code as stated: for the record whose version is
`1.0.0-Z</Version>W` (which matches the semver-like pattern), the greedy
`Version` replace of a second application swallows the closing tag that the
first application spliced into the `VersionSuffix` element, so the second
application changes the file again and performs a write. -/
theorem claim2_counterexample :
    parseVersion recPre.version = some
      ⟨("1").data, ("0").data, ("0").data, some (("Z</Version>W").data)⟩ ∧
    updatedContent
        ⟨("1").data, ("0").data, ("0").data, some (("Z</Version>W").data)⟩
        recPre.version
        (updatedContent
          ⟨("1").data, ("0").data, ("0").data, some (("Z</Version>W").data)⟩
          recPre.version cexContent) ≠
      updatedContent
        ⟨("1").data, ("0").data, ("0").data, some (("Z</Version>W").data)⟩
        recPre.version cexContent ∧
    (match updateProjectFile
        (Fs.update (fun _ => none) recPre.path
          (updatedContent
            ⟨("1").data, ("0").data, ("0").data, some (("Z</Version>W").data)⟩
            recPre.version cexContent)) recPre with
     | .ok r => some r.2
     | .error _ => none) =
      some [.info (("Updated version properties in ").data ++ recPre.project)] := by
  have hc1 : updatedContent
      ⟨("1").data, ("0").data, ("0").data, some (("Z</Version>W").data)⟩
      recPre.version cexContent =
      ("<Version>1.0.0-Z</Version>W</Version><VersionSuffix>Z</Version>W</VersionSuffix>").data := by
    rw [updatedContent_noTerm_pre _ _ _ (("Z</Version>W").data) rfl (by decide)
      (by decide) (by decide) (by decide) (by decide)]
    decide
  have hc2 : updatedContent
      ⟨("1").data, ("0").data, ("0").data, some (("Z</Version>W").data)⟩
      recPre.version
      (("<Version>1.0.0-Z</Version>W</Version><VersionSuffix>Z</Version>W</VersionSuffix>").data) =
      ("<Version>1.0.0-Z</Version>W</Version>W</VersionSuffix>").data := by
    rw [updatedContent_noTerm_pre _ _ _ (("Z</Version>W").data) rfl (by decide)
      (by decide) (by decide) (by decide) (by decide)]
    decide
  refine ⟨by decide, ?_, ?_⟩
  · rw [hc1, hc2]
    decide
  · rw [hc1]
    have hparse : parseVersion recPre.version = some
        ⟨("1").data, ("0").data, ("0").data, some (("Z</Version>W").data)⟩ := by
      decide
    have hread : Fs.update (fun _ => none) recPre.path
        (("<Version>1.0.0-Z</Version>W</Version><VersionSuffix>Z</Version>W</VersionSuffix>").data)
        recPre.path = some
        (("<Version>1.0.0-Z</Version>W</Version><VersionSuffix>Z</Version>W</VersionSuffix>").data) := by
      simp [Fs.update]
    unfold updateProjectFile
    rw [hread]
    dsimp only
    rw [hparse]
    dsimp only
    rw [hc2]
    decide

/-- C2 (amended): for a record whose version matches the semver-like
pattern and contains neither `<` nor `$` (the `$` restriction because a
JavaScript replacement string would expand `$`-patterns), applying
`updateProjectFile` twice yields identical file content after the second
application as after the first, and the second application performs no
write (empty log, same file system); in general the file is not rewritten
whenever the computed replacement leaves the content unchanged (by the
final guard of `updateProjectFile`). -/
theorem claim2_amended (fs : Fs) (p : ProjectVersion) (content : Str)
    (pv : ParsedVersion)
    (hpv : parseVersion p.version = some pv)
    (hlt : '<' ∉ p.version) (hdollar : '$' ∉ p.version)
    (hread : fs p.path = some content) :
    updatedContent pv p.version (updatedContent pv p.version content) =
      updatedContent pv p.version content ∧
    ∃ fs1 log1, updateProjectFile fs p = .ok (fs1, log1) ∧
      fs1 p.path = some (updatedContent pv p.version content) ∧
      updateProjectFile fs1 p = .ok (fs1, []) := by
  have hidem := updatedContent_idem pv p.version content hpv hlt
  by_cases he : updatedContent pv p.version content = content
  · refine ⟨hidem, fs, [], ?_, ?_, ?_⟩
    · unfold updateProjectFile
      rw [hread]
      dsimp only
      rw [hpv]
      dsimp only
      rw [if_neg (by simpa using he)]
    · rw [he]
      exact hread
    · unfold updateProjectFile
      rw [hread]
      dsimp only
      rw [hpv]
      dsimp only
      rw [if_neg (by simpa using he)]
  · refine ⟨hidem, Fs.update fs p.path (updatedContent pv p.version content),
      [.info (("Updated version properties in ").data ++ p.project)], ?_, ?_, ?_⟩
    · unfold updateProjectFile
      rw [hread]
      dsimp only
      rw [hpv]
      dsimp only
      rw [if_pos he]
    · simp [Fs.update]
    · unfold updateProjectFile
      have hl : Fs.update fs p.path (updatedContent pv p.version content) p.path =
          some (updatedContent pv p.version content) := by
        simp [Fs.update]
      rw [hl]
      dsimp only
      rw [hpv]
      dsimp only
      rw [if_neg (by simpa using hidem)]

/-- Witness for C2 (amended) on a small multi-line manifest and the record
with version `2.0.0`. -/
theorem claim2_witness :
    parseVersion recRel.version =
      some ⟨("2").data, ("0").data, ("0").data, none⟩ ∧
    '<' ∉ recRel.version ∧ '$' ∉ recRel.version ∧
    (fun q => if q = recRel.path then some plainContent else none : Fs)
      recRel.path = some plainContent ∧
    (updatedContent ⟨("2").data, ("0").data, ("0").data, none⟩ recRel.version
        (updatedContent ⟨("2").data, ("0").data, ("0").data, none⟩ recRel.version
          plainContent) =
      updatedContent ⟨("2").data, ("0").data, ("0").data, none⟩ recRel.version
        plainContent ∧
     ∃ fs1 log1,
       updateProjectFile
         (fun q => if q = recRel.path then some plainContent else none) recRel =
           .ok (fs1, log1) ∧
       fs1 recRel.path = some (updatedContent
         ⟨("2").data, ("0").data, ("0").data, none⟩ recRel.version plainContent) ∧
       updateProjectFile fs1 recRel = .ok (fs1, [])) :=
  ⟨by decide, by decide, by decide, by simp,
   claim2_amended (fun q => if q = recRel.path then some plainContent else none)
     recRel plainContent ⟨("2").data, ("0").data, ("0").data, none⟩
     (by decide) (by decide) (by decide) (by simp)⟩

/-! ## Claim C10: the frame of the no-prerelease rewrite -/

/-- C10 fails on the code as stated: for the no-prerelease version `2.0.0`
and a manifest line holding a `VersionSuffix` element between two `Version`
elements, the greedy `Version` replace spans from the first `<Version>` to
the last `</Version>` and erases the `VersionSuffix` element entirely, so
the suffix element is not retained. -/
theorem claim10_counterexample :
    parseVersion recRel.version =
      some ⟨("2").data, ("0").data, ("0").data, none⟩ ∧
    updatedContent ⟨("2").data, ("0").data, ("0").data, none⟩ recRel.version
      frameContent = ("<Version>2.0.0</Version>").data ∧
    firstOcc suOpen frameContent = some 20 ∧
    firstOcc suOpen (updatedContent ⟨("2").data, ("0").data, ("0").data, none⟩
      recRel.version frameContent) = none := by
  have hupd : updatedContent ⟨("2").data, ("0").data, ("0").data, none⟩
      recRel.version frameContent = ("<Version>2.0.0</Version>").data := by
    rw [updatedContent_noTerm_rel _ _ _ rfl (by decide) (by decide) (by decide)
      (by decide) (by decide)]
    decide
  refine ⟨by decide, hupd, by decide, ?_⟩
  rw [hupd]
  decide

/-- C10 (amended): when the version has no prerelease, the `VersionSuffix`
replace pass is skipped entirely — `updatedContent` is exactly the
four-pass pipeline over `Version`, `VersionMajor`, `VersionMinor`,
`VersionPatch` — and the rewrite is line-local: every line (terminator-free
segment) containing no occurrence of any of the four opening tags is
byte-for-byte unchanged, so in particular a `VersionSuffix` element on such
a line is retained.  A `VersionSuffix` element sharing a line with a
greedy match span of another element can however be destroyed. -/
theorem claim10_amended (pv : ParsedVersion) (version content : Str)
    (hparse : parseVersion version = some pv) (hp : pv.pre = none) :
    updatedContent pv version content =
      mapSegments (linePipeline
        [(vOpen, vClose, version), (maOpen, maClose, pv.major),
         (miOpen, miClose, pv.minor), (paOpen, paClose, pv.patch)]) content ∧
    ∀ line : Str, firstOcc vOpen line = none → firstOcc maOpen line = none →
      firstOcc miOpen line = none → firstOcc paOpen line = none →
      linePipeline [(vOpen, vClose, version), (maOpen, maClose, pv.major),
        (miOpen, miClose, pv.minor), (paOpen, paClose, pv.patch)] line = line := by
  obtain ⟨hv, _, _, _, hdma, hdmi, hdpa, _⟩ := parseVersion_spec version pv hparse
  have hvterm := version_noTerm hparse
  have hpipe := updatedContent_pipeline pv version content hvterm
    (noTerm_of_digits hdma) (noTerm_of_digits hdmi) (noTerm_of_digits hdpa)
    (by intro pre hpre; rw [hp] at hpre; exact absurd hpre (by simp))
  rw [hp] at hpipe
  refine ⟨by simpa using hpipe, ?_⟩
  intro line h1 h2 h3 h4
  simp only [linePipeline, List.foldl_cons, List.foldl_nil]
  rw [lineReplace_of_noOpen _ _ ((firstOcc_spec vOpen line).2 h1),
    lineReplace_of_noOpen _ _ ((firstOcc_spec maOpen line).2 h2),
    lineReplace_of_noOpen _ _ ((firstOcc_spec miOpen line).2 h3),
    lineReplace_of_noOpen _ _ ((firstOcc_spec paOpen line).2 h4)]

/-- Witness for C10 (amended): version `2.0.0` on the multi-line manifest,
and a line holding only a `VersionSuffix` element is kept unchanged. -/
theorem claim10_witness :
    parseVersion recRel.version =
      some ⟨("2").data, ("0").data, ("0").data, none⟩ ∧
    updatedContent ⟨("2").data, ("0").data, ("0").data, none⟩ recRel.version
      plainContent =
      mapSegments (linePipeline
        [(vOpen, vClose, recRel.version), (maOpen, maClose, ("2").data),
         (miOpen, miClose, ("0").data), (paOpen, paClose, ("0").data)])
        plainContent ∧
    linePipeline
      [(vOpen, vClose, recRel.version), (maOpen, maClose, ("2").data),
       (miOpen, miClose, ("0").data), (paOpen, paClose, ("0").data)]
      (("  <VersionSuffix>beta</VersionSuffix>").data) =
      ("  <VersionSuffix>beta</VersionSuffix>").data :=
  ⟨by decide,
   (claim10_amended ⟨("2").data, ("0").data, ("0").data, none⟩ recRel.version
     plainContent (by decide) rfl).1,
   (claim10_amended ⟨("2").data, ("0").data, ("0").data, none⟩ recRel.version
     plainContent (by decide) rfl).2
     (("  <VersionSuffix>beta</VersionSuffix>").data)
     (by decide) (by decide) (by decide) (by decide)⟩

end Calc
